import Mathlib

/-!
Verification model of the pgmerge merge engine and its helpers
(src/pgmerge/db_import.py, db_export.py, db_graph.py, utils.py, pgmerge.py).

Tables are modelled as lists of rows; a row is the list of the staged column
values in column order, with a missing value (SQL NULL) written `none`. The
SQL statements generated by the merge engine are modelled by executable
functions over this representation, and the SQL text builders are translated
verbatim as string functions.
-/

namespace PgMerge

/-- A column value of the staged data; `none` models SQL NULL. -/
abbrev Value := Nat

abbrev Row := List (Option Value)

abbrev Table := List Row

/-- Semantics of the plain SQL comparison `a = b`: satisfied only when both
sides are non-NULL and equal (a NULL comparison is not satisfied in a WHERE
or ON clause). -/
def sqlEq (a b : Option Value) : Bool :=
  match a, b with
  | some x, some y => x == y
  | _, _ => false

/-- Semantics of the NULL-safe SQL pattern
`(a = b OR (a IS NULL AND b IS NULL))` used by
`sql_delete_identical_rows_between_tables`. -/
def nullSafeEq (a b : Option Value) : Bool :=
  sqlEq a b || (a.isNone && b.isNone)

theorem nullSafeEq_eq_beq (a b : Option Value) : nullSafeEq a b = (a == b) := by
  cases a <;> cases b <;> simp [nullSafeEq, sqlEq]

/-- Model of the WHERE clause generated by
`sql_delete_identical_rows_between_tables`: every staged column compares equal
under the NULL-safe pattern. Both tables compared by the generated SQL have
exactly the staged columns, so compared rows always have equal arity; the
length guard makes the total function agree with the SQL semantics there. -/
def rowsIdentical (r d : Row) : Bool :=
  r.length == d.length && (List.zip r d).all (fun p => nullSafeEq p.1 p.2)

theorem rowsIdentical_iff (r d : Row) : rowsIdentical r d = true ↔ r = d := by
  induction r generalizing d with
  | nil => cases d <;> simp [rowsIdentical]
  | cons a r ih =>
    cases d with
    | nil => simp [rowsIdentical]
    | cons b d =>
      simp only [rowsIdentical, List.length_cons, List.zip_cons_cons, List.all_cons,
        Bool.and_eq_true, List.cons.injEq]
      rw [nullSafeEq_eq_beq]
      constructor
      · rintro ⟨hlen, hab, hall⟩
        refine ⟨eq_of_beq hab, (ih d).mp ?_⟩
        simp only [rowsIdentical, Bool.and_eq_true]
        refine ⟨?_, hall⟩
        have hl : r.length + 1 = d.length + 1 := by
          exact eq_of_beq hlen
        exact beq_iff_eq.mpr (by omega)
      · rintro ⟨rfl, rfl⟩
        refine ⟨beq_iff_eq.mpr rfl, beq_iff_eq.mpr rfl, ?_⟩
        have h := (ih r).mpr rfl
        simp only [rowsIdentical, Bool.and_eq_true] at h
        exact h.2

/-- Model of the id-column join conditions generated by
`sql_insert_rows_not_in_table` and `sql_update_rows_between_tables`: plain SQL
equality on every id column. `ids` holds the positions of the id columns in
the staged column order; a position beyond the end of a row reads NULL. -/
def idMatch (ids : List Nat) (r d : Row) : Bool :=
  ids.all (fun c => sqlEq (r.getD c none) (d.getD c none))

/-- Model of executing `sql_delete_identical_rows_between_tables del ref cols`:
every row of `del` identical to some row of `ref` is deleted; the returned
count is the statement rowcount (the number of rows deleted). -/
def deleteIdenticalRows (del ref : Table) : Table × Nat :=
  let kept := del.filter (fun r => !(ref.any (fun d => rowsIdentical r d)))
  (kept, del.length - kept.length)

/-- Model of executing `sql_insert_rows_not_in_table ins ref ids cols`: the
rows of `ref` (kept in order by the ROW_NUMBER sub-select) whose id columns
match no row of the `ins` snapshot are appended to `ins`; the count is the
statement rowcount. -/
def insertMissingRows (ins ref : Table) (ids : List Nat) : Table × Nat :=
  let newRows := ref.filter (fun r => !(ins.any (fun d => idMatch ids r d)))
  (ins ++ newRows, newRows.length)

/-- Model of executing `sql_update_rows_between_tables upd ref ids cols`: every
row of `upd` whose id columns match some row of `ref` is overwritten with the
staged columns of a matching row (PostgreSQL picks one such row; the model
picks the first); the count is the number of `upd` rows affected. -/
def updateMatchingRows (upd ref : Table) (ids : List Nat) : Table × Nat :=
  let updated := upd.map (fun d =>
    match ref.find? (fun r => idMatch ids r d) with
    | some r => r
    | none => d)
  (updated, upd.countP (fun d => ref.any (fun r => idMatch ids r d)))

structure ImportStats where
  skip : Nat
  insert : Nat
  update : Nat
  total : Nat
deriving DecidableEq, Repr

/-- Model of `upsert_table_to_table cursor src dest id_columns columns`
(src/pgmerge/db_import.py): delete rows of the staging table identical to
destination rows, insert the missing rows, delete the just-inserted rows from
the staging table, then update the remaining matches. Returns the stats (with
`total` still 0, as in the source dictionary) together with the final staging
and destination tables. -/
def upsert_table_to_table (src dest : Table) (ids : List Nat) :
    ImportStats × Table × Table :=
  let d1 := deleteIdenticalRows src dest
  let i1 := insertMissingRows dest d1.1 ids
  let d2 := deleteIdenticalRows d1.1 i1.1
  let u1 := updateMatchingRows i1.1 d2.1 ids
  (⟨d1.2, i1.2, u1.2, 0⟩, d2.1, u1.1)

structure TableSchema where
  columns : List String
  pk_columns : List String
  unique_constraints : List (List String)
deriving DecidableEq, Repr

structure FileConfig where
  columns : Option (List String) := none
  alternate_key : Option (List String) := none
deriving DecidableEq, Repr

/-- Model of `get_unique_columns` (src/pgmerge/db_export.py): the primary key
columns followed by the columns of every unique constraint. -/
def get_unique_columns (t : TableSchema) : List String :=
  t.pk_columns ++ t.unique_constraints.flatten

inductive PreImportError where
  | unsupportedSchema (msg : String)
  | inputParameters (msg : String)
deriving DecidableEq, Repr

/-- The `columns` local of `pg_upsert`: the configured columns, defaulting to
all table columns. -/
def effective_columns (t : TableSchema) (cfg : FileConfig) : List String :=
  cfg.columns.getD t.columns

/-- The `id_columns` local of `pg_upsert`:
`get_unique_columns(...) if alternate_key is None else alternate_key`. -/
def effective_id_columns (t : TableSchema) (cfg : FileConfig) : List String :=
  match cfg.alternate_key with
  | none => get_unique_columns t
  | some ak => ak

/-- Validation phase of `pg_upsert` (src/pgmerge/db_import.py, the parameter
checks), performed before any SQL is executed. Returns the effective column
list and id column list. The dynamic tails of the two InputParameters
messages (a Python set rendering) are elided. -/
def pg_upsert_validate (dest_table : String) (t : TableSchema) (cfg : FileConfig) :
    Except PreImportError (List String × List String) :=
  if (effective_id_columns t cfg).length == 0 then
    .error (.unsupportedSchema "Table has no primary key or unique columns!")
  else if (effective_columns t cfg).any (fun c => !(t.columns.contains c)) then
    .error (.inputParameters ("Columns provided do not exist in table " ++ dest_table))
  else if (effective_id_columns t cfg).any
      (fun c => !((effective_columns t cfg).contains c)) then
    .error (.inputParameters
      ("Columns provided do not include required id columns for table " ++ dest_table))
  else
    .ok (effective_columns t cfg, effective_id_columns t cfg)

/-- Positions of the id columns within the staged column order. -/
def id_positions (columns id_columns : List String) : List Nat :=
  id_columns.map (fun c => columns.indexOf c)

/-- Restricted model of a `pg_upsert` run over one file with no
foreign-column paths, for which the staging select of `_tmp_final` is a plain
projection of the file rows: validate the parameters, run
`upsert_table_to_table` on the file rows, and report the COPY rowcount as
`total`. Used for the orchestrator error-handling claim, whose behavior is
decided entirely by the validation phase; the full staged pipeline, including
the foreign-key translate select, is `pg_upsert_model_fk` below. -/
def pg_upsert_model (dest_table : String) (t : TableSchema) (cfg : FileConfig)
    (file dest : Table) : Except PreImportError (ImportStats × Table) :=
  match pg_upsert_validate dest_table t cfg with
  | .error e => .error e
  | .ok (columns, id_columns) =>
    let ids := id_positions columns id_columns
    let r := upsert_table_to_table file dest ids
    .ok ({ r.1 with total := file.length }, r.2.2)

theorem sqlEq_comm (a b : Option Value) : sqlEq a b = sqlEq b a := by
  cases a with
  | none => cases b <;> rfl
  | some x =>
    cases b with
    | none => rfl
    | some y =>
      show (x == y) = (y == x)
      by_cases h : x = y
      · subst h; rfl
      · rw [beq_eq_false_iff_ne.mpr h, beq_eq_false_iff_ne.mpr (Ne.symm h)]

theorem sqlEq_common_left {a b c : Option Value}
    (h1 : sqlEq a b = true) (h2 : sqlEq a c = true) : sqlEq b c = true := by
  cases a with
  | none => simp [sqlEq] at h1
  | some x =>
    cases b with
    | none => simp [sqlEq] at h1
    | some y =>
      cases c with
      | none => simp [sqlEq] at h2
      | some z =>
        have hy : x = y := by simpa [sqlEq] using h1
        have hz : x = z := by simpa [sqlEq] using h2
        subst hy; subst hz
        simp [sqlEq]

theorem idMatch_comm (ids : List Nat) (a b : Row) :
    idMatch ids a b = idMatch ids b a := by
  unfold idMatch
  induction ids with
  | nil => rfl
  | cons c cs ih =>
    rw [List.all_cons, List.all_cons, ih, sqlEq_comm]

/-- Two rows that both id-match a common row id-match each other. -/
theorem idMatch_common_left {ids : List Nat} {a b c : Row}
    (h1 : idMatch ids a b = true) (h2 : idMatch ids a c = true) :
    idMatch ids b c = true := by
  unfold idMatch at *
  rw [List.all_eq_true] at *
  intro i hi
  exact sqlEq_common_left (h1 i hi) (h2 i hi)

/-- Two rows that both id-match a common row on the right id-match each
other. -/
theorem idMatch_common_right {ids : List Nat} {a b c : Row}
    (h1 : idMatch ids a c = true) (h2 : idMatch ids b c = true) :
    idMatch ids a b = true := by
  rw [idMatch_comm] at h1
  rw [idMatch_comm] at h2
  exact idMatch_common_left h1 h2

theorem idMatch_congr_left {ids : List Nat} {a b c : Row} (h : a = b) :
    idMatch ids a c = idMatch ids b c := by rw [h]

theorem length_filter_not_add_length_filter (l : List α) (p : α → Bool) :
    (l.filter (fun a => !(p a))).length + (l.filter p).length = l.length := by
  induction l with
  | nil => rfl
  | cons a l ih =>
    cases h : p a with
    | true =>
      simp [List.filter_cons, h]
      omega
    | false =>
      simp [List.filter_cons, h]
      omega

theorem countP_or_disjoint (l : List α) (p q : α → Bool)
    (h : ∀ a ∈ l, ¬(p a = true ∧ q a = true)) :
    l.countP (fun a => p a || q a) = l.countP p + l.countP q := by
  induction l with
  | nil => rfl
  | cons a l ih =>
    have ha := h a (List.mem_cons_self a l)
    have ih' := ih (fun x hx => h x (List.mem_cons_of_mem a hx))
    cases hp : p a with
    | true =>
      have hq : q a = false := by
        cases hq : q a
        · rfl
        · exact absurd ⟨hp, hq⟩ ha
      simp [List.countP_cons, hp, hq, ih']
      omega
    | false =>
      cases hq : q a with
      | true =>
        simp [List.countP_cons, hp, hq, ih']
        omega
      | false =>
        simp [List.countP_cons, hp, hq, ih']

/-- In a table whose rows pairwise fail to id-match, a row with at least one
id-match has exactly one. -/
theorem countP_idMatch_eq_one {ids : List Nat} (dest : Table) (m : Row)
    (hd : dest.Pairwise (fun a b => idMatch ids a b = false))
    (hm : dest.any (fun d => idMatch ids m d) = true) :
    dest.countP (fun d => idMatch ids m d) = 1 := by
  induction dest with
  | nil => simp at hm
  | cons d D ih =>
    rw [List.pairwise_cons] at hd
    cases hmd : idMatch ids m d with
    | true =>
      have hz : D.countP (fun d' => idMatch ids m d') = 0 := by
        rw [List.countP_eq_zero]
        intro d' hd' hmd'
        have : idMatch ids d d' = true := idMatch_common_left hmd hmd'
        rw [hd.1 d' hd'] at this
        exact Bool.false_ne_true this
      simp [List.countP_cons, hmd, hz]
    | false =>
      have hm' : D.any (fun d' => idMatch ids m d') = true := by
        simp only [List.any_cons, hmd, Bool.false_or] at hm
        exact hm
      simp [List.countP_cons, hmd, ih hd.2 hm']

/-- Counting the destination rows matched by some staged row: when both sides
pairwise fail to id-match internally and every staged row has a match, the
count equals the number of staged rows. -/
theorem countP_any_idMatch {ids : List Nat} (dest : Table) (M : Table)
    (hd : dest.Pairwise (fun a b => idMatch ids a b = false))
    (hM : M.Pairwise (fun a b => idMatch ids a b = false))
    (hall : ∀ m ∈ M, dest.any (fun d => idMatch ids m d) = true) :
    dest.countP (fun d => M.any (fun m => idMatch ids m d)) = M.length := by
  induction M with
  | nil => simp
  | cons m M' ih =>
    rw [List.pairwise_cons] at hM
    have hsplit : dest.countP (fun d => (m :: M').any (fun r => idMatch ids r d))
        = dest.countP (fun d => idMatch ids m d)
          + dest.countP (fun d => M'.any (fun r => idMatch ids r d)) := by
      have := countP_or_disjoint dest (fun d => idMatch ids m d)
          (fun d => M'.any (fun r => idMatch ids r d)) ?_
      · simpa [List.any_cons] using this
      · intro d _ ⟨h1, h2⟩
        rw [List.any_eq_true] at h2
        obtain ⟨m', hm', h2⟩ := h2
        have : idMatch ids m m' = true := idMatch_common_right h1 h2
        rw [hM.1 m' hm'] at this
        exact Bool.false_ne_true this
    rw [hsplit,
      countP_idMatch_eq_one dest m hd (hall m (List.mem_cons_self m M')),
      ih hM.2 (fun x hx => hall x (List.mem_cons_of_mem m hx))]
    simp only [List.length_cons]
    omega

theorem any_rowsIdentical (T : Table) (r : Row) :
    T.any (fun d => rowsIdentical r d) = true ↔ r ∈ T := by
  rw [List.any_eq_true]
  constructor
  · rintro ⟨d, hd, h⟩
    rw [(rowsIdentical_iff r d).mp h]
    exact hd
  · intro h
    exact ⟨r, h, (rowsIdentical_iff r r).mpr rfl⟩

theorem idMatch_symmRel (ids : List Nat) :
    Symmetric (fun a b : Row => idMatch ids a b = false) := by
  intro a b h
  rw [idMatch_comm]
  exact h

/-- Stage 1 of `upsert_table_to_table`: the staging rows surviving the first
identical-row delete. -/
def uSrc1 (src dest : Table) : Table :=
  (deleteIdenticalRows src dest).1

/-- The staging rows inserted into the destination (no id-match there). -/
def uNew (src dest : Table) (ids : List Nat) : Table :=
  (uSrc1 src dest).filter (fun r => !(dest.any (fun d => idMatch ids r d)))

/-- The staging rows with an id-match in the original destination. -/
def uM (src dest : Table) (ids : List Nat) : Table :=
  (uSrc1 src dest).filter (fun r => dest.any (fun d => idMatch ids r d))

/-- The destination table after the insert step. -/
def uDest1 (src dest : Table) (ids : List Nat) : Table :=
  dest ++ uNew src dest ids

/-- The staging rows surviving the second identical-row delete. -/
def uSrc2 (src dest : Table) (ids : List Nat) : Table :=
  (uSrc1 src dest).filter (fun r => !((uDest1 src dest ids).any (fun d => rowsIdentical r d)))

/-- The destination table after the update step. -/
def uDest2 (src dest : Table) (ids : List Nat) : Table :=
  (uDest1 src dest ids).map (fun d =>
    match (uSrc2 src dest ids).find? (fun r => idMatch ids r d) with
    | some r => r
    | none => d)

theorem upsert_eq (src dest : Table) (ids : List Nat) :
    upsert_table_to_table src dest ids
      = (⟨src.length - (uSrc1 src dest).length, (uNew src dest ids).length,
          (uDest1 src dest ids).countP
            (fun d => (uSrc2 src dest ids).any (fun r => idMatch ids r d)), 0⟩,
         uSrc2 src dest ids, uDest2 src dest ids) := rfl

theorem mem_uSrc1 {src dest : Table} {r : Row} :
    r ∈ uSrc1 src dest ↔ r ∈ src ∧ r ∉ dest := by
  unfold uSrc1 deleteIdenticalRows
  rw [List.mem_filter]
  constructor
  · rintro ⟨h1, h2⟩
    refine ⟨h1, fun hmem => ?_⟩
    rw [Bool.not_eq_true', ← Bool.not_eq_true] at h2
    exact h2 ((any_rowsIdentical dest r).mpr hmem)
  · rintro ⟨h1, h2⟩
    refine ⟨h1, ?_⟩
    rw [Bool.not_eq_true', ← Bool.not_eq_true]
    intro h
    exact h2 ((any_rowsIdentical dest r).mp h)

/-- The second identical-row delete removes exactly the rows that were just
inserted: what remains are the staging rows with an id-match in the original
destination. -/
theorem uSrc2_eq_uM (src dest : Table) (ids : List Nat) :
    uSrc2 src dest ids = uM src dest ids := by
  unfold uSrc2 uM
  apply List.filter_congr
  intro r hr
  have hrs : r ∈ src ∧ r ∉ dest := mem_uSrc1.mp hr
  cases hcase : dest.any (fun d => idMatch ids r d) with
  | true =>
    cases hany : (uDest1 src dest ids).any (fun d => rowsIdentical r d) with
    | false => rfl
    | true =>
      exfalso
      have hmem : r ∈ uDest1 src dest ids := (any_rowsIdentical _ r).mp hany
      rw [uDest1, List.mem_append] at hmem
      rcases hmem with hmem | hmem
      · exact hrs.2 hmem
      · rw [uNew, List.mem_filter] at hmem
        rw [hcase] at hmem
        simp at hmem
  | false =>
    have hmem : r ∈ uNew src dest ids := by
      rw [uNew, List.mem_filter]
      exact ⟨hr, by rw [hcase]; rfl⟩
    have hd1 : r ∈ uDest1 src dest ids := by
      rw [uDest1, List.mem_append]
      exact Or.inr hmem
    rw [(any_rowsIdentical (uDest1 src dest ids) r).mpr hd1]
    rfl

theorem uNew_sub_src {src dest : Table} {ids : List Nat} {r : Row}
    (h : r ∈ uNew src dest ids) : r ∈ src := by
  rw [uNew, List.mem_filter] at h
  exact (mem_uSrc1.mp h.1).1

theorem uM_sub_src {src dest : Table} {ids : List Nat} {r : Row}
    (h : r ∈ uM src dest ids) : r ∈ src := by
  rw [uM, List.mem_filter] at h
  exact (mem_uSrc1.mp h.1).1

/-- Verified invariant of `upsert_table_to_table` (src/pgmerge/db_import.py):
when the id columns identify rows uniquely on both sides, the three statement
rowcounts partition the staging rows. -/
theorem upsert_table_to_table_counts (src dest : Table) (ids : List Nat)
    (hsrc : src.Pairwise (fun a b => idMatch ids a b = false))
    (hdest : dest.Pairwise (fun a b => idMatch ids a b = false)) :
    (upsert_table_to_table src dest ids).1.skip
      + (upsert_table_to_table src dest ids).1.insert
      + (upsert_table_to_table src dest ids).1.update = src.length := by
  rw [upsert_eq]
  show src.length - (uSrc1 src dest).length + (uNew src dest ids).length
      + (uDest1 src dest ids).countP
          (fun d => (uSrc2 src dest ids).any (fun r => idMatch ids r d)) = src.length
  have hsplit : (uNew src dest ids).length + (uM src dest ids).length
      = (uSrc1 src dest).length :=
    length_filter_not_add_length_filter (uSrc1 src dest)
      (fun r => dest.any (fun d => idMatch ids r d))
  have hle : (uSrc1 src dest).length ≤ src.length := by
    unfold uSrc1 deleteIdenticalRows
    exact List.length_filter_le _ _
  have hupd : (uDest1 src dest ids).countP
      (fun d => (uSrc2 src dest ids).any (fun r => idMatch ids r d))
      = (uM src dest ids).length := by
    rw [uSrc2_eq_uM, uDest1, List.countP_append]
    have hzero : (uNew src dest ids).countP
        (fun d => (uM src dest ids).any (fun r => idMatch ids r d)) = 0 := by
      rw [List.countP_eq_zero]
      intro n hn hany
      rw [List.any_eq_true] at hany
      obtain ⟨m, hm, hmatch⟩ := hany
      have hmn : m ≠ n := by
        intro hEq
        rw [uM, List.mem_filter] at hm
        rw [uNew, List.mem_filter] at hn
        rw [hEq] at hm
        rw [hm.2] at hn
        simp at hn
      have := (hsrc.forall (idMatch_symmRel ids)) (uM_sub_src hm) (uNew_sub_src hn) hmn
      rw [this] at hmatch
      exact Bool.false_ne_true hmatch
    have hdcount : dest.countP
        (fun d => (uM src dest ids).any (fun r => idMatch ids r d))
        = (uM src dest ids).length := by
      apply countP_any_idMatch dest (uM src dest ids) hdest
      · have hsub : List.Sublist (uM src dest ids) src := by
          apply List.Sublist.trans (List.filter_sublist _)
          unfold uSrc1 deleteIdenticalRows
          exact List.filter_sublist _
        exact hsrc.sublist hsub
      · intro m hm
        rw [uM, List.mem_filter] at hm
        exact hm.2
    rw [hzero, hdcount]
    omega
  rw [hupd]
  omega

/-- After one run of `upsert_table_to_table`, every staging row is present in
the resulting destination table (when the staging rows id-match pairwise
distinctly). -/
theorem mem_uDest2_of_mem_src (src dest : Table) (ids : List Nat)
    (hsrc : src.Pairwise (fun a b => idMatch ids a b = false))
    {r : Row} (hr : r ∈ src) : r ∈ uDest2 src dest ids := by
  have hforall := hsrc.forall (idMatch_symmRel ids)
  cases hskip : dest.any (fun d => rowsIdentical r d) with
  | true =>
    -- r is identical to a destination row; that row is never updated.
    have hmem : r ∈ dest := (any_rowsIdentical dest r).mp hskip
    have hd1 : r ∈ uDest1 src dest ids := by
      rw [uDest1, List.mem_append]; exact Or.inl hmem
    have hfind : (uSrc2 src dest ids).find? (fun m => idMatch ids m r) = none := by
      rw [List.find?_eq_none]
      intro m hm
      have hm1 : m ∈ uSrc1 src dest := by
        rw [uSrc2, List.mem_filter] at hm
        exact hm.1
      have hmsrc : m ∈ src := (mem_uSrc1.mp hm1).1
      have hmnd : m ∉ dest := (mem_uSrc1.mp hm1).2
      have hmr : m ≠ r := fun hEq => hmnd (hEq ▸ hmem)
      rw [hforall hmsrc hr hmr]
      exact Bool.false_ne_true
    rw [uDest2]
    refine List.mem_map.mpr ⟨r, hd1, ?_⟩
    rw [hfind]
  | false =>
    have hr1 : r ∈ uSrc1 src dest := by
      rw [uSrc1, deleteIdenticalRows, List.mem_filter]
      exact ⟨hr, by rw [hskip]; rfl⟩
    cases hins : dest.any (fun d => idMatch ids r d) with
    | false =>
      -- r was inserted; the inserted copy is never updated.
      have hnew : r ∈ uNew src dest ids := by
        rw [uNew, List.mem_filter]
        exact ⟨hr1, by rw [hins]; rfl⟩
      have hd1 : r ∈ uDest1 src dest ids := by
        rw [uDest1, List.mem_append]; exact Or.inr hnew
      have hfind : (uSrc2 src dest ids).find? (fun m => idMatch ids m r) = none := by
        rw [List.find?_eq_none]
        intro m hm
        have hmnotd1 : m ∉ uDest1 src dest ids := by
          rw [uSrc2, List.mem_filter] at hm
          intro hmem
          have := (any_rowsIdentical (uDest1 src dest ids) m).mpr hmem
          rw [this] at hm
          simp at hm
        have hmr : m ≠ r := fun hEq => hmnotd1 (hEq ▸ hd1)
        have hmsrc : m ∈ src := by
          rw [uSrc2, List.mem_filter] at hm
          exact (mem_uSrc1.mp hm.1).1
        rw [hforall hmsrc hr hmr]
        exact Bool.false_ne_true
      rw [uDest2]
      refine List.mem_map.mpr ⟨r, hd1, ?_⟩
      rw [hfind]
    | true =>
      -- r updates the destination row it id-matches.
      rw [List.any_eq_true] at hins
      obtain ⟨d, hd, hmatch⟩ := hins
      have hd1 : d ∈ uDest1 src dest ids := by
        rw [uDest1, List.mem_append]; exact Or.inl hd
      have hr2 : r ∈ uSrc2 src dest ids := by
        rw [uSrc2_eq_uM, uM, List.mem_filter]
        refine ⟨hr1, ?_⟩
        rw [List.any_eq_true]
        exact ⟨d, hd, hmatch⟩
      have hfound : ∃ m, (uSrc2 src dest ids).find? (fun m => idMatch ids m d) = some m := by
        have : ((uSrc2 src dest ids).find? (fun m => idMatch ids m d)).isSome = true := by
          rw [List.find?_isSome]
          exact ⟨r, hr2, hmatch⟩
        exact Option.isSome_iff_exists.mp this
      obtain ⟨m, hm⟩ := hfound
      have hmP : idMatch ids m d = true := by
        have := List.find?_some hm
        simpa using this
      have hmmem : m ∈ uSrc2 src dest ids := List.mem_of_find?_eq_some hm
      have hmsrc : m ∈ src := by
        rw [uSrc2, List.mem_filter] at hmmem
        exact (mem_uSrc1.mp hmmem.1).1
      have hmr : m = r := by
        by_contra hne
        have := hforall hmsrc hr hne
        have hmr' : idMatch ids m r = true := idMatch_common_right hmP hmatch
        rw [this] at hmr'
        exact Bool.false_ne_true hmr'
      rw [uDest2]
      refine List.mem_map.mpr ⟨d, hd1, ?_⟩
      rw [hm, hmr]

/-- Verified invariant: re-running `upsert_table_to_table` with the same
staging rows against the destination produced by a first run inserts and
updates nothing, provided the staging rows id-match pairwise distinctly. -/
theorem upsert_table_to_table_idempotent (src dest : Table) (ids : List Nat)
    (hsrc : src.Pairwise (fun a b => idMatch ids a b = false)) :
    (upsert_table_to_table src (upsert_table_to_table src dest ids).2.2 ids).1.insert = 0
      ∧ (upsert_table_to_table src (upsert_table_to_table src dest ids).2.2 ids).1.update = 0 := by
  have hD2 : (upsert_table_to_table src dest ids).2.2 = uDest2 src dest ids := by
    rw [upsert_eq]
  rw [hD2, upsert_eq]
  have hempty : uSrc1 src (uDest2 src dest ids) = [] := by
    rw [uSrc1, deleteIdenticalRows]
    simp only
    rw [List.filter_eq_nil_iff]
    intro r hr
    have hmem : r ∈ uDest2 src dest ids := mem_uDest2_of_mem_src src dest ids hsrc hr
    rw [(any_rowsIdentical (uDest2 src dest ids) r).mpr hmem]
    simp
  constructor
  · show (uNew src (uDest2 src dest ids) ids).length = 0
    rw [uNew, hempty]
    rfl
  · show (uDest1 src (uDest2 src dest ids) ids).countP
        (fun d => (uSrc2 src (uDest2 src dest ids) ids).any (fun r => idMatch ids r d)) = 0
    have h2 : uSrc2 src (uDest2 src dest ids) ids = [] := by
      rw [uSrc2, hempty]
      rfl
    rw [h2, List.countP_eq_zero]
    intro d _ h
    simp at h

/-- Model of the Python `sep.join(parts)` used by the SQL text builders. -/
def sqlJoin (sep : String) : List String → String
  | [] => ""
  | [x] => x
  | x :: y :: xs => x ++ sep ++ sqlJoin sep (y :: xs)

/-- The per-column comparison template of
`sql_delete_identical_rows_between_tables` (src/pgmerge/db_import.py). -/
def sql_delete_where_fragment (delete_table_name reference_table_name col : String) : String :=
  "(" ++ reference_table_name ++ "." ++ col ++ " = " ++ delete_table_name ++ "." ++ col
    ++ " OR (" ++ reference_table_name ++ "." ++ col ++ " IS NULL AND "
    ++ delete_table_name ++ "." ++ col ++ " IS NULL))"

/-- Model of `sql_delete_identical_rows_between_tables`. -/
def sql_delete_identical_rows_between_tables (delete_table_name reference_table_name : String)
    (all_column_names : List String) : String :=
  "DELETE FROM " ++ delete_table_name ++ " USING " ++ reference_table_name ++ " WHERE "
    ++ sqlJoin " AND " (all_column_names.map
        (sql_delete_where_fragment delete_table_name reference_table_name)) ++ ";"

/-- The insert-table id tuple of `sql_insert_rows_not_in_table`. -/
def insert_table_cols (insert_table_name : String) (id_column_names : List String) : String :=
  sqlJoin "," (id_column_names.map (fun col => insert_table_name ++ "." ++ col))

/-- The staging-table id tuple of `sql_insert_rows_not_in_table`. -/
def reference_table_cols (id_column_names : List String) : String :=
  sqlJoin "," (id_column_names.map (fun col => "_tft." ++ col))

/-- The comparison in the ON clause of the LEFT JOIN generated by
`sql_insert_rows_not_in_table`: a plain tuple equality. -/
def sql_insert_join_comparison (insert_table_name : String) (id_column_names : List String) :
    String :=
  "(" ++ insert_table_cols insert_table_name id_column_names ++ ") = ("
    ++ reference_table_cols id_column_names ++ ")"

/-- Model of `sql_insert_rows_not_in_table`. -/
def sql_insert_rows_not_in_table (insert_table_name reference_table_name : String)
    (id_column_names column_names : List String) : String :=
  "INSERT INTO " ++ insert_table_name ++ "(" ++ sqlJoin "," column_names ++ ") ("
    ++ ("SELECT " ++ sqlJoin "," (column_names.map (fun col => "_tft." ++ col))
      ++ " FROM (" ++ ("SELECT ROW_NUMBER() OVER () as __row_number, * FROM "
        ++ reference_table_name)
      ++ ") as _tft LEFT JOIN " ++ insert_table_name
      ++ " ON " ++ sql_insert_join_comparison insert_table_name id_column_names
      ++ " WHERE (" ++ insert_table_cols insert_table_name id_column_names
      ++ ") is NULL ORDER BY _tft.__row_number")
    ++ ") RETURNING NULL;"

/-- The per-column SET template of `sql_update_rows_between_tables`. -/
def sql_update_set_fragment (reference_table_name col : String) : String :=
  col ++ " = " ++ reference_table_name ++ "." ++ col

/-- The per-id-column WHERE template of `sql_update_rows_between_tables`:
plain equality. -/
def sql_update_where_fragment (update_table_name reference_table_name col : String) : String :=
  update_table_name ++ "." ++ col ++ " = " ++ reference_table_name ++ "." ++ col

/-- Model of `sql_update_rows_between_tables`. -/
def sql_update_rows_between_tables (update_table_name reference_table_name : String)
    (id_column_names all_column_names : List String) : String :=
  "UPDATE " ++ update_table_name ++ " SET "
    ++ sqlJoin "," (all_column_names.map (sql_update_set_fragment reference_table_name))
    ++ " FROM " ++ reference_table_name ++ " WHERE "
    ++ sqlJoin " AND " (id_column_names.map
        (sql_update_where_fragment update_table_name reference_table_name)) ++ ";"

/-- Modelled from the spec wording: the NULL-safe comparison pattern
`(a = b) OR (a IS NULL AND b IS NULL)` as SQL text. -/
def nullSafeSqlPattern (a b : String) : String :=
  "(" ++ a ++ " = " ++ b ++ " OR (" ++ a ++ " IS NULL AND " ++ b ++ " IS NULL))"

theorem mem_data_append_right {c : Char} (s t : String) (h : c ∈ t.data) :
    c ∈ (s ++ t).data := by
  rw [String.data_append]
  exact List.mem_append_right _ h

theorem not_mem_data_append {c : Char} (s t : String) (hs : c ∉ s.data) (ht : c ∉ t.data) :
    c ∉ (s ++ t).data := by
  rw [String.data_append]
  intro h
  rcases List.mem_append.mp h with h | h
  · exact hs h
  · exact ht h

/-- Every instance of the NULL-safe pattern contains the character I (from
its IS NULL keywords). -/
theorem mem_I_nullSafeSqlPattern (a b : String) : 'I' ∈ (nullSafeSqlPattern a b).data := by
  unfold nullSafeSqlPattern
  exact mem_data_append_right _ _ (by decide)

theorem not_mem_sqlJoin {c : Char} (sep : String) (l : List String) (hsep : c ∉ sep.data)
    (hl : ∀ s ∈ l, c ∉ s.data) : c ∉ (sqlJoin sep l).data := by
  induction l with
  | nil => simp [sqlJoin]
  | cons x xs ih =>
    cases xs with
    | nil => exact hl x (List.mem_cons_self x [])
    | cons y ys =>
      show c ∉ (x ++ sep ++ sqlJoin sep (y :: ys)).data
      apply not_mem_data_append
      · apply not_mem_data_append
        · exact hl x (List.mem_cons_self x _)
        · exact hsep
      · exact ih (fun s hs => hl s (List.mem_cons_of_mem x hs))

/-- C3 (amended): among the SQL comparisons generated by the merge engine,
only the identical-row delete of steps 5 and 7 uses the NULL-safe pattern
`(a = b) OR (a IS NULL AND b IS NULL)`; the anti-join comparison of the
insert of step 6 and the id-column join of the update of step 8 use plain `=`
and are not instances of the NULL-safe pattern (shown for identifiers not
containing the character I, which rules out accidental occurrences inside
names). -/
theorem merge_sql_null_safety (stag dest : String) (ids cols : List String)
    (hstag : 'I' ∉ stag.data) (hdest : 'I' ∉ dest.data)
    (hids : ∀ c ∈ ids, 'I' ∉ c.data) :
    (∀ col ∈ cols, sql_delete_where_fragment stag dest col
        = nullSafeSqlPattern (dest ++ "." ++ col) (stag ++ "." ++ col))
    ∧ (∀ col ∈ ids, ∀ a b : String,
        sql_update_where_fragment dest stag col ≠ nullSafeSqlPattern a b)
    ∧ (∀ a b : String, sql_insert_join_comparison dest ids ≠ nullSafeSqlPattern a b) := by
  refine ⟨?_, ?_, ?_⟩
  · intro col _
    simp [sql_delete_where_fragment, nullSafeSqlPattern, String.append_assoc]
  · intro col hcol a b h
    have hI := mem_I_nullSafeSqlPattern a b
    rw [← h] at hI
    apply absurd hI
    unfold sql_update_where_fragment
    repeat' apply not_mem_data_append
    all_goals first
      | exact hstag
      | exact hdest
      | exact hids col hcol
      | decide
  · intro a b h
    have hI := mem_I_nullSafeSqlPattern a b
    rw [← h] at hI
    apply absurd hI
    unfold sql_insert_join_comparison
    have hic : 'I' ∉ (insert_table_cols dest ids).data := by
      apply not_mem_sqlJoin _ _ (by decide)
      intro s hs
      obtain ⟨col, hcolmem, rfl⟩ := List.mem_map.mp hs
      repeat' apply not_mem_data_append
      all_goals first
        | exact hdest
        | exact hids col hcolmem
        | decide
    have hrc : 'I' ∉ (reference_table_cols ids).data := by
      apply not_mem_sqlJoin _ _ (by decide)
      intro s hs
      obtain ⟨col, hcolmem, rfl⟩ := List.mem_map.mp hs
      repeat' apply not_mem_data_append
      all_goals first
        | exact hids col hcolmem
        | decide
    repeat' apply not_mem_data_append
    all_goals first
      | exact hic
      | exact hrc
      | decide

/-- Witness for C3 (amended) at the table and column names used by an actual
merge run. -/
theorem merge_sql_null_safety_witness :
    (∀ col ∈ (["id", "val"] : List String),
        sql_delete_where_fragment "_tmp_final_t" "t" col
          = nullSafeSqlPattern ("t" ++ "." ++ col) ("_tmp_final_t" ++ "." ++ col))
    ∧ (∀ col ∈ (["id"] : List String), ∀ a b : String,
        sql_update_where_fragment "t" "_tmp_final_t" col ≠ nullSafeSqlPattern a b)
    ∧ (∀ a b : String, sql_insert_join_comparison "t" ["id"] ≠ nullSafeSqlPattern a b) :=
  merge_sql_null_safety "_tmp_final_t" "t" ["id"] ["id", "val"]
    (by decide) (by decide) (by decide)

/-- C3 counterexample: the id-column join generated for the update step is a
plain equality and is not an instance of the NULL-safe pattern, refuting the
claim that every comparison spanning potentially-NULL columns uses it. -/
theorem merge_sql_null_safety_counterexample :
    sql_update_where_fragment "t" "_tmp_final_t" "id" = "t.id = _tmp_final_t.id"
    ∧ (∀ a b : String,
        sql_update_where_fragment "t" "_tmp_final_t" "id" ≠ nullSafeSqlPattern a b)
    ∧ (∀ a b : String, sql_insert_join_comparison "t" ["id"] ≠ nullSafeSqlPattern a b) := by
  refine ⟨rfl, ?_, ?_⟩
  · intro a b h
    have hI := mem_I_nullSafeSqlPattern a b
    rw [← h] at hI
    revert hI
    decide
  · intro a b h
    have hI := mem_I_nullSafeSqlPattern a b
    rw [← h] at hI
    revert hI
    decide

/-- Shape of a successful validation: the returned column and id-column lists
are exactly the effective ones. -/
theorem pg_upsert_validate_ok_shape (dest_table : String) (t : TableSchema) (cfg : FileConfig)
    (cols idcols : List String)
    (hv : pg_upsert_validate dest_table t cfg = .ok (cols, idcols)) :
    cols = effective_columns t cfg ∧ idcols = effective_id_columns t cfg := by
  unfold pg_upsert_validate at hv
  split at hv
  · exact absurd hv (by simp)
  · split at hv
    · exact absurd hv (by simp)
    · split at hv
      · exact absurd hv (by simp)
      · simp only [Except.ok.injEq, Prod.mk.injEq] at hv
        exact ⟨hv.1.symm, hv.2.symm⟩

/-- C4 (amended): throughout the diff/insert/update steps of a merge, row
identity is determined by exactly the configured alternate-key columns when
one is configured; otherwise it is determined by the primary-key columns
together with the columns of every unique constraint (`get_unique_columns`),
not by the primary-key columns alone. -/
theorem pg_upsert_id_columns (dest_table : String) (t : TableSchema) (cfg : FileConfig)
    (cols idcols : List String)
    (hv : pg_upsert_validate dest_table t cfg = .ok (cols, idcols)) :
    (∀ ak, cfg.alternate_key = some ak → idcols = ak)
    ∧ (cfg.alternate_key = none
        → idcols = t.pk_columns ++ t.unique_constraints.flatten) := by
  have h := (pg_upsert_validate_ok_shape dest_table t cfg cols idcols hv).2
  constructor
  · intro ak hak
    rw [h]
    unfold effective_id_columns
    rw [hak]
  · intro hak
    rw [h]
    unfold effective_id_columns
    rw [hak]
    rfl

/-- Witness for C4: a table with primary key id and a unique constraint on
code, no alternate key: the identity columns are id and code. -/
theorem pg_upsert_id_columns_witness :
    (["id", "code"] : List String)
      = (⟨["id", "code"], ["id"], [["code"]]⟩ : TableSchema).pk_columns
        ++ (⟨["id", "code"], ["id"], [["code"]]⟩ : TableSchema).unique_constraints.flatten :=
  (pg_upsert_id_columns "t" ⟨["id", "code"], ["id"], [["code"]]⟩ ⟨none, none⟩
    ["id", "code"] ["id", "code"] rfl).2 rfl

/-- C4 counterexample: with primary key id, a unique constraint on code and no
alternate key, the id-column list used for identity is id, code — not the
primary key alone. -/
theorem pg_upsert_id_columns_counterexample :
    pg_upsert_validate "t" ⟨["id", "code"], ["id"], [["code"]]⟩ ⟨none, none⟩
      = .ok (["id", "code"], ["id", "code"])
    ∧ (["id", "code"] : List String)
        ≠ (⟨["id", "code"], ["id"], [["code"]]⟩ : TableSchema).pk_columns :=
  ⟨rfl, by decide⟩

/-- Helper: the UnsupportedSchema error is returned exactly when the
identifier column list is empty. -/
theorem pg_upsert_validate_unsupported_iff_empty (dest_table : String) (t : TableSchema)
    (cfg : FileConfig) :
    pg_upsert_validate dest_table t cfg
        = .error (.unsupportedSchema "Table has no primary key or unique columns!")
      ↔ effective_id_columns t cfg = [] := by
  unfold pg_upsert_validate
  by_cases h : ((effective_id_columns t cfg).length == 0) = true
  · rw [if_pos h]
    have hempty : effective_id_columns t cfg = [] :=
      List.length_eq_zero.mp (eq_of_beq h)
    simp [hempty]
  · rw [if_neg h]
    constructor
    · intro hcontra
      split at hcontra
      · exact absurd hcontra (by simp)
      · split at hcontra
        · exact absurd hcontra (by simp)
        · exact absurd hcontra (by simp)
    · intro hempty
      exact absurd (by rw [hempty]; rfl) h

/-- C5 (amended): `pg_upsert` raises UnsupportedSchema with message
"Table has no primary key or unique columns!" (before any SQL is executed,
this being the first check of the validation phase) if and only if the
identifier column list is empty: either no alternate_key is configured and
the table has neither primary-key columns nor unique-constraint columns, or
an empty alternate_key list is configured. A table with no primary key but
with a unique constraint does not raise. -/
theorem pg_upsert_unsupported_schema_iff (dest_table : String) (t : TableSchema)
    (cfg : FileConfig) :
    pg_upsert_validate dest_table t cfg
        = .error (.unsupportedSchema "Table has no primary key or unique columns!")
      ↔ ((cfg.alternate_key = none ∧ t.pk_columns = []
            ∧ t.unique_constraints.flatten = [])
          ∨ cfg.alternate_key = some []) := by
  rw [pg_upsert_validate_unsupported_iff_empty]
  cases hak : cfg.alternate_key with
  | none =>
    simp [effective_id_columns, hak, get_unique_columns, List.append_eq_nil]
  | some ak =>
    simp [effective_id_columns, hak]

/-- C5 counterexample: a table with no primary key but with a unique
constraint on code and no alternate key configured: the claim says
UnsupportedSchema is raised, but validation succeeds. -/
theorem pg_upsert_unsupported_schema_counterexample :
    pg_upsert_validate "t" ⟨["code", "val"], [], [["code"]]⟩ ⟨none, none⟩
      = .ok (["code", "val"], ["code"])
    ∧ (⟨none, none⟩ : FileConfig).alternate_key = none
    ∧ (⟨["code", "val"], [], [["code"]]⟩ : TableSchema).pk_columns = [] :=
  ⟨rfl, rfl, rfl⟩

def addStats (a b : ImportStats) : ImportStats :=
  ⟨a.skip + b.skip, a.insert + b.insert, a.update + b.update, a.total + b.total⟩

structure RunState where
  totals : ImportStats
  error_tables : List String
  skipped_files : List String
deriving DecidableEq, Repr

/-- Model of the per-file loop of `import_all_new` (src/pgmerge/pgmerge.py):
each (file, table) pair is merged in order; only UnsupportedSchemaException
is caught — the table is appended to error_tables, the file to skipped_files,
and the loop continues. Any other exception propagates out of the loop.
`runFile` abstracts the `pg_upsert` call for one pair. -/
def import_all_new_loop (runFile : String → String → Except PreImportError ImportStats) :
    List (String × String) → RunState → Except PreImportError RunState
  | [], st => .ok st
  | (file, table) :: rest, st =>
    match runFile file table with
    | .ok stats => import_all_new_loop runFile rest
        ⟨addStats st.totals stats, st.error_tables, st.skipped_files⟩
    | .error (.unsupportedSchema _) => import_all_new_loop runFile rest
        ⟨st.totals, st.error_tables ++ [table], st.skipped_files ++ [file]⟩
    | .error e => .error e

/-- C6 (amended): the orchestrator catches only UnsupportedSchemaException —
for it the table is recorded as an error, the file as skipped, and the loop
proceeds with the remaining files; an InputParametersException is not caught
and aborts the run. -/
theorem import_all_new_error_handling
    (runFile : String → String → Except PreImportError ImportStats)
    (file table : String) (rest : List (String × String)) (st : RunState) :
    (∀ msg, runFile file table = .error (.unsupportedSchema msg)
      → import_all_new_loop runFile ((file, table) :: rest) st
          = import_all_new_loop runFile rest
              ⟨st.totals, st.error_tables ++ [table], st.skipped_files ++ [file]⟩)
    ∧ (∀ msg, runFile file table = .error (.inputParameters msg)
      → import_all_new_loop runFile ((file, table) :: rest) st
          = .error (.inputParameters msg)) := by
  constructor
  · intro msg h
    simp [import_all_new_loop, h]
  · intro msg h
    simp [import_all_new_loop, h]

/-- A per-file merge that fails on a.csv with the actual InputParameters error
produced by `pg_upsert` when the config references a column missing from the
table. -/
def exRunInputParams (file : String) (_table : String) : Except PreImportError ImportStats :=
  if file = "a.csv" then
    (pg_upsert_model "a" ⟨["id"], ["id"], []⟩ ⟨some ["id", "bogus"], none⟩ [] []).map Prod.fst
  else
    .ok ⟨1, 0, 0, 1⟩

/-- A per-file merge that fails on a.csv with the UnsupportedSchema error. -/
def exRunUnsupported (file : String) (_table : String) : Except PreImportError ImportStats :=
  if file = "a.csv" then
    (pg_upsert_model "a" ⟨["id"], [], []⟩ ⟨none, none⟩ [] []).map Prod.fst
  else
    .ok ⟨1, 0, 0, 1⟩

/-- Witness for C6 (amended): an UnsupportedSchema failure on the first file
is skipped and the loop proceeds to the second file. -/
theorem import_all_new_error_handling_witness :
    import_all_new_loop exRunUnsupported [("a.csv", "a"), ("b.csv", "b")] ⟨⟨0, 0, 0, 0⟩, [], []⟩
      = import_all_new_loop exRunUnsupported [("b.csv", "b")]
          ⟨⟨0, 0, 0, 0⟩, [] ++ ["a"], [] ++ ["a.csv"]⟩ :=
  (import_all_new_error_handling exRunUnsupported "a.csv" "a" [("b.csv", "b")]
    ⟨⟨0, 0, 0, 0⟩, [], []⟩).1 "Table has no primary key or unique columns!" rfl

/-- C6 counterexample: when the first file fails with the InputParameters
error (config referencing a column not in the table), the orchestrator loop
aborts with that error instead of skipping the table and merging the
remaining files. -/
theorem import_all_new_error_handling_counterexample :
    import_all_new_loop exRunInputParams [("a.csv", "a"), ("b.csv", "b")] ⟨⟨0, 0, 0, 0⟩, [], []⟩
      = .error (.inputParameters ("Columns provided do not exist in table " ++ "a"))
    ∧ ∀ st : RunState,
        import_all_new_loop exRunInputParams [("a.csv", "a"), ("b.csv", "b")]
          ⟨⟨0, 0, 0, 0⟩, [], []⟩ ≠ .ok st := by
  have heq : import_all_new_loop exRunInputParams [("a.csv", "a"), ("b.csv", "b")]
      ⟨⟨0, 0, 0, 0⟩, [], []⟩
      = .error (.inputParameters ("Columns provided do not exist in table " ++ "a")) := rfl
  exact ⟨heq, fun st h => Except.noConfusion (heq.symm.trans h)⟩

/-- Strict comparison of characters by code point, as Python compares the
characters of str values. -/
def charLtB (a b : Char) : Bool := decide (a.toNat < b.toNat)

/-- Lexicographic strict comparison of lists from a strict comparison of
elements, as Python compares lists and strings. -/
def lexLtB (lt : α → α → Bool) : List α → List α → Bool
  | [], [] => false
  | [], _ :: _ => true
  | _ :: _, [] => false
  | a :: as, b :: bs => if lt a b then true else if lt b a then false else lexLtB lt as bs

theorem lexLtB_asym (lt : α → α → Bool)
    (hasym : ∀ a b, lt a b = true → lt b a = false) :
    ∀ a b, lexLtB lt a b = true → lexLtB lt b a = false := by
  intro a
  induction a with
  | nil =>
    intro b h
    cases b with
    | nil => exact absurd h (by simp [lexLtB])
    | cons x xs => rfl
  | cons a as ih =>
    intro b h
    cases b with
    | nil => exact absurd h (by simp [lexLtB])
    | cons b bs =>
      rw [lexLtB] at h
      rw [lexLtB]
      cases hab : lt a b with
      | true => simp [hasym a b hab]
      | false =>
        rw [if_neg (by simp [hab])] at h
        cases hba : lt b a with
        | true =>
          rw [if_pos hba] at h
          exact absurd h (by simp)
        | false =>
          rw [if_neg (by simp [hba])] at h
          simp [ih bs h]

theorem lexLtB_trans (lt : α → α → Bool)
    (htrans : ∀ a b c, lt a b = true → lt b c = true → lt a c = true)
    (hconn : ∀ a b, lt a b = false → lt b a = false → a = b) :
    ∀ a b c, lexLtB lt a b = true → lexLtB lt b c = true → lexLtB lt a c = true := by
  intro a
  induction a with
  | nil =>
    intro b c h1 h2
    cases b with
    | nil => exact absurd h1 (by simp [lexLtB])
    | cons b bs =>
      cases c with
      | nil => exact absurd h2 (by simp [lexLtB])
      | cons x xs => rfl
  | cons a as ih =>
    intro b c h1 h2
    cases b with
    | nil => exact absurd h1 (by simp [lexLtB])
    | cons b bs =>
      cases c with
      | nil => exact absurd h2 (by simp [lexLtB])
      | cons c cs =>
        rw [lexLtB] at h1 h2
        rw [lexLtB]
        cases hab : lt a b with
        | true =>
          cases hbc : lt b c with
          | true => simp [htrans a b c hab hbc]
          | false =>
            rw [if_neg (by simp [hbc])] at h2
            cases hcb : lt c b with
            | true =>
              rw [if_pos hcb] at h2
              exact absurd h2 (by simp)
            | false =>
              have hbc' : b = c := hconn b c hbc hcb
              subst hbc'
              simp [hab]
        | false =>
          rw [if_neg (by simp [hab])] at h1
          cases hba : lt b a with
          | true =>
            rw [if_pos hba] at h1
            exact absurd h1 (by simp)
          | false =>
            rw [if_neg (by simp [hba])] at h1
            have hab' : a = b := hconn a b hab hba
            subst hab'
            cases hac : lt a c with
            | true => simp
            | false =>
              rw [if_neg (by simp [hac])] at h2
              cases hca : lt c a with
              | true =>
                rw [if_pos hca] at h2
                exact absurd h2 (by simp)
              | false =>
                rw [if_neg (by simp [hca])] at h2
                simp
                exact ih bs cs h1 h2

theorem lexLtB_conn (lt : α → α → Bool)
    (hconn : ∀ a b, lt a b = false → lt b a = false → a = b) :
    ∀ a b, lexLtB lt a b = false → lexLtB lt b a = false → a = b := by
  intro a
  induction a with
  | nil =>
    intro b h1 _
    cases b with
    | nil => rfl
    | cons x xs => exact absurd h1 (by simp [lexLtB])
  | cons a as ih =>
    intro b h1 h2
    cases b with
    | nil => exact absurd h2 (by simp [lexLtB])
    | cons b bs =>
      rw [lexLtB] at h1 h2
      cases hab : lt a b with
      | true =>
        rw [if_pos hab] at h1
        exact absurd h1 (by simp)
      | false =>
        cases hba : lt b a with
        | true =>
          rw [if_pos hba] at h2
          exact absurd h2 (by simp)
        | false =>
          rw [if_neg (by simp [hab]), if_neg (by simp [hba])] at h1
          rw [if_neg (by simp [hba]), if_neg (by simp [hab])] at h2
          rw [hconn a b hab hba, ih bs h1 h2]

theorem charLtB_asym (a b : Char) (h : charLtB a b = true) : charLtB b a = false := by
  simp only [charLtB, decide_eq_true_eq] at h
  simp only [charLtB, decide_eq_false_iff_not]
  omega

theorem charLtB_trans (a b c : Char) (h1 : charLtB a b = true) (h2 : charLtB b c = true) :
    charLtB a c = true := by
  simp only [charLtB, decide_eq_true_eq] at h1 h2 ⊢
  omega

theorem charLtB_conn (a b : Char) (h1 : charLtB a b = false) (h2 : charLtB b a = false) :
    a = b := by
  simp only [charLtB, decide_eq_false_iff_not] at h1 h2
  have h3 : a.toNat = b.toNat := by omega
  exact Char.ext (UInt32.ext h3)

/-- Strict comparison of strings by code points, as Python compares str
values when sorting. -/
def strLtB (a b : String) : Bool := lexLtB charLtB a.data b.data

theorem strLtB_asym (a b : String) (h : strLtB a b = true) : strLtB b a = false :=
  lexLtB_asym charLtB charLtB_asym a.data b.data h

theorem strLtB_trans (a b c : String) (h1 : strLtB a b = true) (h2 : strLtB b c = true) :
    strLtB a c = true :=
  lexLtB_trans charLtB charLtB_trans charLtB_conn a.data b.data c.data h1 h2

theorem strLtB_conn (a b : String) (h1 : strLtB a b = false) (h2 : strLtB b a = false) :
    a = b :=
  String.ext (lexLtB_conn charLtB charLtB_conn a.data b.data h1 h2)

/-- Strict comparison of lists of strings, as Python compares the node lists
of two cycles when sorting the cycle list. -/
def cycleLtB (a b : List String) : Bool := lexLtB strLtB a b

/-- Model of `cycle.sort()` in `break_cycles`: sort the node names of a cycle
ascending. -/
def pySortStrings (l : List String) : List String :=
  List.insertionSort (fun a b => strLtB b a = false) l

/-- Model of `simple_cycles.sort()` in `break_cycles`: sort the list of
(already sorted) cycles ascending. -/
def pySortCycles (l : List (List String)) : List (List String) :=
  List.insertionSort (fun a b => cycleLtB b a = false) l

/-- A sort over a decidable total order is a canonical form: permuting its
input does not change its output. -/
theorem insertionSort_eq_of_perm {r : α → α → Prop} [DecidableRel r]
    (total : ∀ a b, r a b ∨ r b a) (trans : ∀ a b c, r a b → r b c → r a c)
    (antisymm : ∀ a b, r a b → r b a → a = b)
    {l₁ l₂ : List α} (h : l₁.Perm l₂) :
    List.insertionSort r l₁ = List.insertionSort r l₂ := by
  apply @List.eq_of_perm_of_sorted _ r ⟨antisymm⟩
  · exact (List.perm_insertionSort r l₁).trans (h.trans (List.perm_insertionSort r l₂).symm)
  · exact @List.sorted_insertionSort _ r _ ⟨total⟩ ⟨fun _ _ _ => trans _ _ _⟩ l₁
  · exact @List.sorted_insertionSort _ r _ ⟨total⟩ ⟨fun _ _ _ => trans _ _ _⟩ l₂

theorem pySortCycles_eq_of_perm {l₁ l₂ : List (List String)} (h : l₁.Perm l₂) :
    pySortCycles l₁ = pySortCycles l₂ := by
  apply insertionSort_eq_of_perm _ _ _ h
  · intro a b
    cases hab : cycleLtB b a with
    | false => exact Or.inl rfl
    | true => exact Or.inr (lexLtB_asym strLtB strLtB_asym b a hab)
  · intro a b c h1 h2
    cases hac : cycleLtB c a with
    | false => rfl
    | true =>
      exfalso
      cases hbc : cycleLtB b c with
      | true =>
        have hba : cycleLtB b a = true :=
          lexLtB_trans strLtB strLtB_trans strLtB_conn b c a hbc hac
        rw [h1] at hba
        exact Bool.false_ne_true hba
      | false =>
        have hbceq : b = c := lexLtB_conn strLtB strLtB_conn b c hbc h2
        subst hbceq
        rw [h1] at hac
        exact Bool.false_ne_true hac
  · intro a b h1 h2
    exact lexLtB_conn strLtB strLtB_conn a b h2 h1

/-- Model of a networkx directed graph as used by db_graph.py: a node list
and an edge list (an edge A -> B meaning table A has a foreign key into
table B). -/
structure DiGraph where
  nodes : List String
  edges : List (String × String)
deriving DecidableEq, Repr

/-- Model of `graph.remove_edge(a, b)`: removes the edge when present and
raises NetworkXError (modelled as none) when absent. -/
def removeEdge (g : DiGraph) (a b : String) : Option DiGraph :=
  if (a, b) ∈ g.edges then
    some ⟨g.nodes, g.edges.filter (fun e => !(e == (a, b)))⟩
  else none

/-- The loop body of `break_cycles` (src/pgmerge/db_graph.py): for each cycle
of the sorted cycle list remove the edge cycle[0] -> cycle[-1], accumulating
the removed edges in order. -/
def breakCyclesAux : DiGraph → List (List String) → List (String × String)
    → Option (DiGraph × List (String × String))
  | g, [], acc => some (g, acc)
  | g, c :: cs, acc =>
    match c.head?, c.getLast? with
    | some a, some b =>
      match removeEdge g a b with
      | some g2 => breakCyclesAux g2 cs (acc ++ [(a, b)])
      | none => none
    | _, _ => none

/-- Model of `break_cycles` (src/pgmerge/db_graph.py): sort each simple
cycle's node list, sort the list of cycles, then remove the edge
cycle[0] -> cycle[-1] for each cycle in order. The simple-cycle list
(computed by networkx, outside this repository) is a parameter. -/
def break_cycles (g : DiGraph) (cycles : List (List String)) :
    Option (DiGraph × List (String × String)) :=
  breakCyclesAux g (pySortCycles (cycles.map pySortStrings)) []

theorem breakCyclesAux_spec :
    ∀ (cs : List (List String)) (g : DiGraph) (acc : List (String × String))
      (g' : DiGraph) (removed : List (String × String)),
    breakCyclesAux g cs acc = some (g', removed) →
    removed = acc ++ cs.map (fun c => ((c.head?).getD "", (c.getLast?).getD ""))
    ∧ g'.nodes = g.nodes
    ∧ g'.edges = g.edges.filter
        (fun e => !((cs.map (fun c => ((c.head?).getD "", (c.getLast?).getD ""))).contains e)) := by
  intro cs
  induction cs with
  | nil =>
    intro g acc g' removed h
    rw [breakCyclesAux] at h
    simp only [Option.some.injEq, Prod.mk.injEq] at h
    obtain ⟨hg, hr⟩ := h
    subst hg
    subst hr
    refine ⟨by simp, rfl, ?_⟩
    simp [List.contains]
  | cons c cs ih =>
    intro g acc g' removed h
    cases hh : c.head? with
    | none => simp [breakCyclesAux, hh] at h
    | some a =>
      cases hl : c.getLast? with
      | none => simp [breakCyclesAux, hh, hl] at h
      | some b =>
        rw [breakCyclesAux] at h
        rw [hh, hl] at h
        cases hre : removeEdge g a b with
        | none => simp [hre] at h
        | some g2 =>
          simp only [hre] at h
          obtain ⟨hrem, hnodes, hedges⟩ := ih g2 (acc ++ [(a, b)]) g' removed h
          have hg2 : g2.nodes = g.nodes
              ∧ g2.edges = g.edges.filter (fun e => !(e == (a, b))) := by
            unfold removeEdge at hre
            split at hre
            · simp only [Option.some.injEq] at hre
              rw [← hre]
              exact ⟨rfl, rfl⟩
            · exact absurd hre (by simp)
          refine ⟨?_, by rw [hnodes, hg2.1], ?_⟩
          · rw [hrem]
            simp [hh, hl, List.append_assoc]
          · rw [hedges, hg2.2, List.filter_filter]
            apply List.filter_congr
            intro e _
            simp only [List.map_cons, hh, hl, Option.getD_some, List.contains_cons,
              Bool.not_or]
            rw [Bool.and_comm]

/-- C8: `break_cycles` is deterministic — its result depends only on the
multiset of cycles modulo order inside each cycle — and when every removal
succeeds it removes, for each cycle in canonically sorted order, exactly the
edge cycle[0] -> cycle[-1] (for a sorted self-loop [n] this is the loop edge
(n, n)), returning the removed edges in that order and deleting exactly those
edges from the graph. -/
theorem break_cycles_deterministic (g : DiGraph) (cycles cycles2 : List (List String))
    (g' : DiGraph) (removed : List (String × String))
    (hperm : (cycles.map pySortStrings).Perm (cycles2.map pySortStrings))
    (hb : break_cycles g cycles = some (g', removed)) :
    break_cycles g cycles2 = break_cycles g cycles
    ∧ removed = (pySortCycles (cycles.map pySortStrings)).map
        (fun c => ((c.head?).getD "", (c.getLast?).getD ""))
    ∧ g'.nodes = g.nodes
    ∧ g'.edges = g.edges.filter (fun e => !(removed.contains e)) := by
  have hdet : break_cycles g cycles2 = break_cycles g cycles := by
    unfold break_cycles
    rw [pySortCycles_eq_of_perm hperm.symm]
  have hb' : breakCyclesAux g (pySortCycles (cycles.map pySortStrings)) []
      = some (g', removed) := hb
  obtain ⟨hrem, hnodes, hedges⟩ :=
    breakCyclesAux_spec (pySortCycles (cycles.map pySortStrings)) g [] g' removed hb'
  rw [List.nil_append] at hrem
  refine ⟨hdet, hrem, hnodes, ?_⟩
  rw [hedges, hrem]

/-- Witness for C8: a two-cycle between a and b plus a self-loop on c; the
cycle list is given in a rotated and permuted order on one side. -/
theorem break_cycles_deterministic_witness :
    break_cycles ⟨["a", "b", "c"], [("a", "b"), ("b", "a"), ("c", "c")]⟩ [["c"], ["a", "b"]]
      = break_cycles ⟨["a", "b", "c"], [("a", "b"), ("b", "a"), ("c", "c")]⟩ [["b", "a"], ["c"]]
    ∧ ([("a", "b"), ("c", "c")] : List (String × String))
        = (pySortCycles ([["b", "a"], ["c"]].map pySortStrings)).map
            (fun c => ((c.head?).getD "", (c.getLast?).getD ""))
    ∧ (⟨["a", "b", "c"], [("b", "a")]⟩ : DiGraph).nodes
        = (⟨["a", "b", "c"], [("a", "b"), ("b", "a"), ("c", "c")]⟩ : DiGraph).nodes
    ∧ (⟨["a", "b", "c"], [("b", "a")]⟩ : DiGraph).edges
        = (⟨["a", "b", "c"], [("a", "b"), ("b", "a"), ("c", "c")]⟩ : DiGraph).edges.filter
            (fun e => !(([("a", "b"), ("c", "c")] : List (String × String)).contains e)) :=
  break_cycles_deterministic ⟨["a", "b", "c"], [("a", "b"), ("b", "a"), ("c", "c")]⟩
    [["b", "a"], ["c"]] [["c"], ["a", "b"]] ⟨["a", "b", "c"], [("b", "a")]⟩
    [("a", "b"), ("c", "c")] (by decide) rfl

/-- A node with no incoming edge from the remaining nodes: it can be emitted
next by a topological sort (Kahn's scheme, modelling nx.topological_sort,
which is code outside this repository). -/
def noIncoming (edges : List (String × String)) (remaining : List String) (n : String) : Bool :=
  !(edges.any (fun e => e.2 == n && remaining.contains e.1))

/-- Modelled from the spec: nx.topological_sort emits, while nodes remain,
some remaining node having no incoming edge from the other remaining nodes,
and fails (raises) when none exists, i.e. when a cycle remains. -/
def topoAux (edges : List (String × String)) : Nat → List String → Option (List String)
  | _, [] => some []
  | 0, _ :: _ => none
  | fuel + 1, r :: rs =>
    match (r :: rs).find? (noIncoming edges (r :: rs)) with
    | none => none
    | some n => (topoAux edges fuel ((r :: rs).erase n)).map (fun l => n :: l)

def topological_sort (g : DiGraph) : Option (List String) :=
  topoAux g.edges g.nodes.length g.nodes

/-- Model of `get_insertion_order` (src/pgmerge/db_graph.py): break the
cycles of a copy of the graph, topologically sort it, and reverse the
result. -/
def get_insertion_order (g : DiGraph) (cycles : List (List String)) : Option (List String) :=
  match break_cycles g cycles with
  | none => none
  | some (g2, _) => (topological_sort g2).map List.reverse

theorem noIncoming_spec {edges : List (String × String)} {rem : List String} {n : String}
    (h : noIncoming edges rem n = true) {a b : String} (hab : (a, b) ∈ edges)
    (hbn : b = n) : a ∉ rem := by
  intro hmem
  rw [noIncoming, Bool.not_eq_true'] at h
  rw [List.any_eq_false] at h
  apply h (a, b) hab
  have h1 : (b == n) = true := beq_iff_eq.mpr hbn
  have h2 : rem.contains a = true := List.elem_iff.mpr hmem
  rw [h1, h2]
  rfl

theorem topoAux_perm (edges : List (String × String)) :
    ∀ (fuel : Nat) (rem : List String) (l : List String),
    topoAux edges fuel rem = some l → l.Perm rem := by
  intro fuel
  induction fuel with
  | zero =>
    intro rem l h
    cases rem with
    | nil =>
      rw [topoAux] at h
      simp only [Option.some.injEq] at h
      rw [← h]
    | cons r rs => simp [topoAux] at h
  | succ fuel ih =>
    intro rem l h
    cases rem with
    | nil =>
      rw [topoAux] at h
      simp only [Option.some.injEq] at h
      rw [← h]
    | cons r rs =>
      rw [topoAux] at h
      cases hf : (r :: rs).find? (noIncoming edges (r :: rs)) with
      | none => rw [hf] at h; exact absurd h (by simp)
      | some n =>
        rw [hf] at h
        obtain ⟨l', hl', hcons⟩ := Option.map_eq_some'.mp h
        have hperm := ih _ l' hl'
        have hn : n ∈ r :: rs := List.mem_of_find?_eq_some hf
        rw [← hcons]
        exact (hperm.cons n).trans (List.perm_cons_erase hn).symm

theorem topoAux_sublist (edges : List (String × String)) :
    ∀ (fuel : Nat) (rem : List String) (l : List String),
    topoAux edges fuel rem = some l →
    ∀ a b, (a, b) ∈ edges → a ∈ rem → b ∈ rem → List.Sublist [a, b] l := by
  intro fuel
  induction fuel with
  | zero =>
    intro rem l h a b _ ha _
    cases rem with
    | nil => exact absurd ha (by simp)
    | cons r rs => simp [topoAux] at h
  | succ fuel ih =>
    intro rem l h a b hab ha hb
    cases rem with
    | nil => exact absurd ha (by simp)
    | cons r rs =>
      rw [topoAux] at h
      cases hf : (r :: rs).find? (noIncoming edges (r :: rs)) with
      | none => rw [hf] at h; exact absurd h (by simp)
      | some n =>
        rw [hf] at h
        obtain ⟨l', hl', hcons⟩ := Option.map_eq_some'.mp h
        have hni : noIncoming edges (r :: rs) n = true := List.find?_some hf
        have hbn : b ≠ n := by
          intro hEq
          exact noIncoming_spec hni hab hEq ha
        rw [← hcons]
        by_cases han : a = n
        · subst han
          have hperm := topoAux_perm edges fuel _ l' hl'
          have hbe : b ∈ (r :: rs).erase a := (List.mem_erase_of_ne hbn).mpr hb
          have hbl : b ∈ l' := (hperm.mem_iff).mpr hbe
          exact List.cons_sublist_cons.mpr (List.singleton_sublist.mpr hbl)
        · have ha' : a ∈ (r :: rs).erase n := (List.mem_erase_of_ne han).mpr ha
          have hb' : b ∈ (r :: rs).erase n := (List.mem_erase_of_ne hbn).mpr hb
          exact (ih _ l' hl' a b hab ha' hb').cons n

/-- C7: when `get_insertion_order` returns a list, that list contains every
node of the input graph exactly once, and for every edge A -> B that remains
after cycle-breaking, B appears before A in the returned list (referents
before referrers). Wellformedness: edge endpoints are graph nodes and node
names are distinct, as networkx guarantees. -/
theorem get_insertion_order_spec (g : DiGraph) (cycles : List (List String))
    (g' : DiGraph) (removed : List (String × String)) (order : List String)
    (hwf : ∀ e ∈ g.edges, e.1 ∈ g.nodes ∧ e.2 ∈ g.nodes)
    (hnd : g.nodes.Nodup)
    (hb : break_cycles g cycles = some (g', removed))
    (ho : get_insertion_order g cycles = some order) :
    order.Perm g.nodes
    ∧ (∀ n ∈ g.nodes, order.count n = 1)
    ∧ (∀ a b, (a, b) ∈ g'.edges → List.Sublist [b, a] order) := by
  unfold get_insertion_order at ho
  rw [hb] at ho
  obtain ⟨topo, htopo, horder⟩ := Option.map_eq_some'.mp ho
  have hb' : breakCyclesAux g (pySortCycles (cycles.map pySortStrings)) []
      = some (g', removed) := hb
  obtain ⟨_, hnodes, hedges⟩ :=
    breakCyclesAux_spec (pySortCycles (cycles.map pySortStrings)) g [] g' removed hb'
  unfold topological_sort at htopo
  have hperm : topo.Perm g'.nodes := topoAux_perm g'.edges _ _ _ htopo
  have hpg : topo.Perm g.nodes := hnodes ▸ hperm
  have horderperm : order.Perm g.nodes := by
    rw [← horder]
    exact (List.reverse_perm topo).trans hpg
  refine ⟨horderperm, ?_, ?_⟩
  · intro n hn
    rw [horderperm.count_eq]
    exact List.count_eq_one_of_mem hnd hn
  · intro a b hab
    have hmem : (a, b) ∈ g.edges := by
      rw [hedges] at hab
      exact (List.mem_filter.mp hab).1
    have h1 : a ∈ g'.nodes := by rw [hnodes]; exact (hwf _ hmem).1
    have h2 : b ∈ g'.nodes := by rw [hnodes]; exact (hwf _ hmem).2
    have hsub : List.Sublist [a, b] topo :=
      topoAux_sublist g'.edges _ _ _ htopo a b hab h1 h2
    have hrev := hsub.reverse
    rw [horder] at hrev
    simpa using hrev

/-- Witness for C7: the table places depends on country; the insertion order
lists country first. -/
theorem get_insertion_order_spec_witness :
    (["country", "places"] : List String).Perm
        (⟨["places", "country"], [("places", "country")]⟩ : DiGraph).nodes
    ∧ (∀ n ∈ (⟨["places", "country"], [("places", "country")]⟩ : DiGraph).nodes,
        (["country", "places"] : List String).count n = 1)
    ∧ (∀ a b, (a, b) ∈ (⟨["places", "country"], [("places", "country")]⟩ : DiGraph).edges
        → List.Sublist [b, a] ["country", "places"]) :=
  get_insertion_order_spec ⟨["places", "country"], [("places", "country")]⟩ []
    ⟨["places", "country"], [("places", "country")]⟩ [] ["country", "places"]
    (by decide) (by decide) rfl rfl

/-- Model of Python `listy.insert(i, value)`: insert before position i,
appending when i is at or past the end. -/
def pyInsert (l : List α) (i : Nat) (a : α) : List α :=
  l.take i ++ a :: l.drop i

/-- Model of Python `del listy[i]`: IndexError (none) when out of range. -/
def pyDelIdx (l : List α) (i : Nat) : Option (List α) :=
  if i < l.length then some (l.eraseIdx i) else none

/-- Model of Python `sorted(idxs)` for Nat. -/
def pySortNat (l : List Nat) : List Nat :=
  List.insertionSort (fun a b => a ≤ b) l

/-- Model of Python `min(idxs)`: ValueError (none) on an empty list. -/
def pyMin : List Nat → Option Nat
  | [] => none
  | a :: as => some (as.foldl Nat.min a)

/-- Model of `replace_indexes` (src/pgmerge/utils.py): delete the indices to
be replaced, highest first, then insert the new values, in reverse, at the
minimum replaced index. -/
def replace_indexes (l : List α) (idxs_to_replace : List Nat) (new_values : List α) :
    Option (List α) :=
  match (pySortNat idxs_to_replace).reverse.foldlM pyDelIdx l, pyMin idxs_to_replace with
  | some l1, some m => some (new_values.reverse.foldl (fun acc v => pyInsert acc m v) l1)
  | _, _ => none

/-- The elements of a list whose absolute position (counted from k) is not in
idxs, in their original order. -/
def keepAux (idxs : List Nat) : Nat → List α → List α
  | _, [] => []
  | k, a :: as =>
    if idxs.contains k then keepAux idxs (k + 1) as else a :: keepAux idxs (k + 1) as

/-- The elements of a list whose position is not replaced, in order. -/
def keepNotReplaced (l : List α) (idxs : List Nat) : List α :=
  keepAux idxs 0 l

theorem foldl_pyInsert (l : List α) (i : Nat) (news : List α) (hi : i ≤ l.length) :
    news.reverse.foldl (fun acc v => pyInsert acc i v) l = l.take i ++ news ++ l.drop i := by
  induction news with
  | nil => simp
  | cons v vs ih =>
    rw [List.reverse_cons, List.foldl_append, ih]
    show pyInsert (l.take i ++ vs ++ l.drop i) i v = _
    unfold pyInsert
    have hlen : (l.take i).length = i := by
      rw [List.length_take]
      omega
    rw [List.append_assoc, List.take_left' hlen, List.drop_left' hlen]
    simp

theorem keepAux_high (idxs : List Nat) :
    ∀ (l : List α) (k : Nat), (∀ j ∈ idxs, j < k) → keepAux idxs k l = l := by
  intro l
  induction l with
  | nil => intro k _; rfl
  | cons a as ih =>
    intro k hk
    rw [keepAux]
    have hc : idxs.contains k = false := by
      cases hc : idxs.contains k with
      | false => rfl
      | true =>
        have := hk k (List.elem_iff.mp hc)
        omega
    rw [hc, if_neg (by simp), ih (k + 1) (fun j hj => Nat.lt_succ_of_lt (hk j hj))]

theorem keepAux_congr (idxs idxs' : List Nat)
    (hc : ∀ j, idxs.contains j = idxs'.contains j) :
    ∀ (l : List α) (k : Nat), keepAux idxs k l = keepAux idxs' k l := by
  intro l
  induction l with
  | nil => intro k; rfl
  | cons a as ih =>
    intro k
    rw [keepAux, keepAux, hc k, ih (k + 1)]

theorem keepAux_eraseIdx (idxs : List Nat) :
    ∀ (l : List α) (i k : Nat), k ≤ i → (∀ j ∈ idxs, j < i) →
    keepAux idxs k (l.eraseIdx (i - k)) = keepAux (i :: idxs) k l := by
  intro l
  induction l with
  | nil => intro i k _ _; rfl
  | cons a as ih =>
    intro i k hki hlt
    by_cases hik : i = k
    · subst hik
      rw [Nat.sub_self]
      show keepAux idxs i as = keepAux (i :: idxs) i (a :: as)
      rw [keepAux]
      have hc : (i :: idxs).contains i = true := by
        rw [List.contains_cons]
        simp
      rw [hc, if_pos rfl]
      rw [keepAux_high idxs as i hlt,
        keepAux_high (i :: idxs) as (i + 1)
          (fun j hj => by
            rcases List.mem_cons.mp hj with hj | hj
            · omega
            · have := hlt j hj; omega)]
    · have hklt : k < i := by omega
      have hsub : i - k = (i - (k + 1)) + 1 := by omega
      rw [hsub, List.eraseIdx_cons_succ]
      rw [keepAux, keepAux]
      have hck : (i :: idxs).contains k = idxs.contains k := by
        rw [List.contains_cons]
        have : (k == i) = false := by
          rw [beq_eq_false_iff_ne]
          omega
        rw [this, Bool.false_or]
      rw [hck, ih i (k + 1) (by omega) hlt]

theorem foldlM_pyDelIdx (s : List Nat) :
    ∀ (l : List α), s.Pairwise (fun a b => b < a) → (∀ i ∈ s, i < l.length) →
    s.foldlM pyDelIdx l = some (keepAux s 0 l) := by
  induction s with
  | nil =>
    intro l _ _
    rw [keepAux_high [] l 0 (by simp)]
    rfl
  | cons i rest ih =>
    intro l hpw hin
    rw [List.pairwise_cons] at hpw
    have hi : i < l.length := hin i (List.mem_cons_self i rest)
    have hstep : pyDelIdx l i = some (l.eraseIdx i) := by
      rw [pyDelIdx, if_pos hi]
    show (pyDelIdx l i).bind (rest.foldlM pyDelIdx) = _
    rw [hstep]
    show rest.foldlM pyDelIdx (l.eraseIdx i) = _
    have hlen : (l.eraseIdx i).length = l.length - 1 := by
      rw [List.length_eraseIdx, if_pos hi]
    have hin' : ∀ j ∈ rest, j < (l.eraseIdx i).length := by
      intro j hj
      have h1 := hpw.1 j hj
      rw [hlen]
      omega
    rw [ih (l.eraseIdx i) hpw.2 hin']
    have : keepAux rest 0 (l.eraseIdx i) = keepAux (i :: rest) 0 l := by
      have := keepAux_eraseIdx rest l i 0 (Nat.zero_le i) hpw.1
      rw [Nat.sub_zero] at this
      exact this
    rw [this]

theorem foldl_min_choice : ∀ (as : List Nat) (a : Nat),
    as.foldl Nat.min a = a ∨ as.foldl Nat.min a ∈ as := by
  intro as
  induction as with
  | nil => intro a; exact Or.inl rfl
  | cons b bs ih =>
    intro a
    have hstep : List.foldl Nat.min a (b :: bs) = List.foldl Nat.min (a.min b) bs := rfl
    rw [hstep]
    rcases ih (a.min b) with h | h
    · by_cases hab : a ≤ b
      · have hmin : a.min b = a := by
          have h2 : a.min b = min a b := rfl
          rw [h2]; omega
        rw [hmin] at h ⊢
        exact Or.inl h
      · have hmin : a.min b = b := by
          have h2 : a.min b = min a b := rfl
          rw [h2]; omega
        rw [hmin] at h ⊢
        exact Or.inr (by rw [h]; exact List.mem_cons_self b bs)
    · exact Or.inr (List.mem_cons_of_mem b h)

theorem foldl_min_le : ∀ (as : List Nat) (a : Nat),
    as.foldl Nat.min a ≤ a ∧ ∀ j ∈ as, as.foldl Nat.min a ≤ j := by
  intro as
  induction as with
  | nil => intro a; exact ⟨Nat.le_refl a, by simp⟩
  | cons b bs ih =>
    intro a
    have hstep : List.foldl Nat.min a (b :: bs) = List.foldl Nat.min (a.min b) bs := rfl
    rw [hstep]
    have h := ih (a.min b)
    refine ⟨Nat.le_trans h.1 (Nat.min_le_left a b), ?_⟩
    intro j hj
    rcases List.mem_cons.mp hj with hjb | hj
    · rw [hjb]
      exact Nat.le_trans h.1 (Nat.min_le_right a b)
    · exact h.2 j hj

theorem pyMin_spec (l : List Nat) (m : Nat) (h : pyMin l = some m) :
    m ∈ l ∧ ∀ j ∈ l, m ≤ j := by
  cases l with
  | nil => simp [pyMin] at h
  | cons a as =>
    rw [pyMin] at h
    simp only [Option.some.injEq] at h
    subst h
    constructor
    · rcases foldl_min_choice as a with h | h
      · rw [h]; exact List.mem_cons_self a as
      · exact List.mem_cons_of_mem a h
    · intro j hj
      rcases List.mem_cons.mp hj with hja | hj
      · rw [hja]
        exact (foldl_min_le as a).1
      · exact (foldl_min_le as a).2 j hj

theorem keepAux_take_eq (idxs : List Nat) :
    ∀ (l : List α) (k n : Nat), (∀ j ∈ idxs, k + n ≤ j) →
    (keepAux idxs k l).take n = l.take n := by
  intro l
  induction l with
  | nil => intro k n _; rfl
  | cons a as ih =>
    intro k n h
    cases n with
    | zero => simp
    | succ n2 =>
      rw [keepAux]
      have hc : idxs.contains k = false := by
        cases hc : idxs.contains k with
        | false => rfl
        | true =>
          have := h k (List.elem_iff.mp hc)
          omega
      rw [hc, if_neg (by simp), List.take_succ_cons, List.take_succ_cons,
        ih (k + 1) n2 (fun j hj => by have := h j hj; omega)]

theorem pySortNat_rev_pairwise (idxs : List Nat) (hnd : idxs.Nodup) :
    (pySortNat idxs).reverse.Pairwise (fun a b => b < a) := by
  rw [List.pairwise_reverse]
  have hsorted : (pySortNat idxs).Pairwise (fun a b => a ≤ b) :=
    List.sorted_insertionSort _ idxs
  have hnd2 : (pySortNat idxs).Nodup :=
    ((List.perm_insertionSort _ idxs).nodup_iff).mpr hnd
  exact (hsorted.and hnd2).imp (fun h => Nat.lt_of_le_of_ne h.1 h.2)

theorem contains_eq_of_perm {l₁ l₂ : List Nat} (h : l₁.Perm l₂) (j : Nat) :
    l₁.contains j = l₂.contains j := by
  cases hc : l₂.contains j with
  | true => exact List.elem_iff.mpr (h.mem_iff.mpr (List.elem_iff.mp hc))
  | false =>
    cases hc1 : l₁.contains j with
    | false => rfl
    | true =>
      have hmem := h.mem_iff.mp (List.elem_iff.mp hc1)
      have h2 : l₂.contains j = true := List.elem_iff.mpr hmem
      rw [h2] at hc
      exact hc

/-- C9: when a replacement actually happens (a nonempty, duplicate-free,
in-range index set), `replace_indexes` keeps the prefix before the minimum
replaced index unchanged, inserts the expanded group there, deletes every
other replaced index, and keeps the relative order of all non-replaced
elements. -/
theorem replace_indexes_spec (l : List α) (idxs : List Nat) (news : List α) (m : Nat)
    (hm : pyMin idxs = some m) (hnd : idxs.Nodup) (hin : ∀ i ∈ idxs, i < l.length) :
    replace_indexes l idxs news
      = some (l.take m ++ news ++ (keepNotReplaced l idxs).drop m)
    ∧ (keepNotReplaced l idxs).take m = l.take m := by
  obtain ⟨hmmem, hmle⟩ := pyMin_spec idxs m hm
  have hperm : (pySortNat idxs).reverse.Perm idxs :=
    (List.reverse_perm _).trans (List.perm_insertionSort _ idxs)
  have hpw := pySortNat_rev_pairwise idxs hnd
  have hin2 : ∀ i ∈ (pySortNat idxs).reverse, i < l.length :=
    fun i hi => hin i (hperm.mem_iff.mp hi)
  have hfold := foldlM_pyDelIdx (pySortNat idxs).reverse l hpw hin2
  have hkeep : keepAux ((pySortNat idxs).reverse) 0 l = keepNotReplaced l idxs :=
    keepAux_congr _ idxs (fun j => contains_eq_of_perm hperm j) l 0
  have htake : (keepNotReplaced l idxs).take m = l.take m :=
    keepAux_take_eq idxs l 0 m (fun j hj => by have := hmle j hj; omega)
  have hmlen : m ≤ (keepNotReplaced l idxs).length := by
    have h1 : ((keepNotReplaced l idxs).take m).length = (l.take m).length := by
      rw [htake]
    rw [List.length_take, List.length_take] at h1
    have h2 : m < l.length := hin m hmmem
    omega
  constructor
  · unfold replace_indexes
    rw [hfold, hkeep, hm]
    show some (news.reverse.foldl (fun acc v => pyInsert acc m v) (keepNotReplaced l idxs)) = _
    rw [foldl_pyInsert _ m news hmlen, htake]
  · exact htake

/-- Witness for C9: replacing indices 2 and 1 of [a, b, c, d] with [x, y]
yields [a, x, y, d]: the group sits at index 1, the other replaced index is
gone, and a, d keep their order. -/
theorem replace_indexes_spec_witness :
    replace_indexes ["a", "b", "c", "d"] [2, 1] ["x", "y"]
      = some ((["a", "b", "c", "d"] : List String).take 1 ++ ["x", "y"]
          ++ (keepNotReplaced ["a", "b", "c", "d"] [2, 1]).drop 1)
    ∧ (keepNotReplaced (["a", "b", "c", "d"] : List String) [2, 1]).take 1
        = (["a", "b", "c", "d"] : List String).take 1 :=
  replace_indexes_spec ["a", "b", "c", "d"] [2, 1] ["x", "y"] 1
    rfl (by decide) (by decide)

structure ForeignKeyInfo where
  name : String
  constrained_columns : List String
  referred_table : String
  referred_columns : List String
deriving DecidableEq, Repr

/-- A column together with the foreign-key path leading to it;
an empty path denotes a local column (db_export.py). -/
abbrev ForeignColumnPath := String × List String

/-- The per-table config map, keyed by table name. -/
abbrev TablesConfig := List (String × FileConfig)

def lookupConfig (cfg : TablesConfig) (t : String) : Option FileConfig :=
  (cfg.find? (fun p => p.1 == t)).map Prod.snd

/-- The alternate key configured for the table an FK refers to, when that
table has a config entry carrying one. -/
def akColumns (cfg : TablesConfig) (fk : ForeignKeyInfo) : Option (List String) :=
  match lookupConfig cfg fk.referred_table with
  | none => none
  | some tc => tc.alternate_key

/-- The condition under which `replace_local_columns_with_alternate_keys`
rewrites a foreign key: all its constrained columns are among the selected
local columns, and the referred table is configured with an alternate key. -/
def fkRewritten (cfg : TablesConfig) (local_columns : List String)
    (fk : ForeignKeyInfo) : Bool :=
  fk.constrained_columns.all (fun c => local_columns.contains c)
    && (akColumns cfg fk).isSome

/-- One iteration of the FK loop of
`replace_local_columns_with_alternate_keys` (src/pgmerge/db_export.py):
skip unless the constrained columns are a subset of the selected local
columns and the referred table has an alternate key; then replace the
entries at the positions of the constrained columns (found by `list.index`,
which raises, modelled none, when a column is missing) with the alternate-key
columns tagged with the FK name. -/
def processFk (cfg : TablesConfig) (local_columns : List String)
    (fc : List ForeignColumnPath) (fky : ForeignKeyInfo) : Option (List ForeignColumnPath) :=
  if !(fky.constrained_columns.all (fun c => local_columns.contains c)) then some fc
  else
    match akColumns cfg fky with
    | none => some fc
    | some new_columns =>
      if fky.constrained_columns.all (fun c => (fc.map Prod.fst).contains c) then
        replace_indexes fc
          (fky.constrained_columns.map (fun c => List.indexOf c (fc.map Prod.fst)))
          (new_columns.map (fun c => (c, [fky.name])))
      else none

/-- Model of `replace_local_columns_with_alternate_keys`
(src/pgmerge/db_export.py): start from the selected local columns with empty
paths and process each foreign key of the table in order. -/
def replace_local_columns_with_alternate_keys (fks : List ForeignKeyInfo)
    (cfg : TablesConfig) (local_columns : List String) : Option (List ForeignColumnPath) :=
  fks.foldlM (processFk cfg local_columns)
    (local_columns.map (fun c => (c, ([] : List String))))

theorem processFk_skip (cfg : TablesConfig) (local_columns : List String)
    (fc : List ForeignColumnPath) (fky : ForeignKeyInfo)
    (h : fkRewritten cfg local_columns fky = false) :
    processFk cfg local_columns fc fky = some fc := by
  rw [fkRewritten, Bool.and_eq_false_iff] at h
  rw [processFk]
  rcases h with h | h
  · rw [h]
    rfl
  · cases hsub : fky.constrained_columns.all (fun c => local_columns.contains c) with
    | false => rfl
    | true =>
      rw [if_neg (by simp)]
      cases hak : akColumns cfg fky with
      | none => rfl
      | some aks =>
        rw [hak] at h
        exact absurd h (by simp)

theorem keepAux_sublist (idxs : List Nat) :
    ∀ (l : List α) (k : Nat), List.Sublist (keepAux idxs k l) l := by
  intro l
  induction l with
  | nil => intro k; exact List.Sublist.refl []
  | cons a as ih =>
    intro k
    rw [keepAux]
    cases hc : idxs.contains k with
    | true =>
      rw [if_pos rfl]
      exact (ih (k + 1)).cons a
    | false =>
      rw [if_neg (by simp)]
      exact List.cons_sublist_cons.mpr (ih (k + 1))

/-- An element dropped by the keep-filter sits at one of the listed
positions. -/
theorem keepAux_mem_or (idxs : List Nat) :
    ∀ (l : List α) (k : Nat) (e : α), e ∈ l → e ∉ keepAux idxs k l →
    ∃ j, idxs.contains (j + k) = true ∧ ∃ h : j < l.length, l.get ⟨j, h⟩ = e := by
  intro l
  induction l with
  | nil => intro k e he _; exact absurd he (by simp)
  | cons a as ih =>
    intro k e he hkeep
    rw [keepAux] at hkeep
    cases hc : idxs.contains k with
    | true =>
      rw [hc, if_pos rfl] at hkeep
      by_cases hea : e = a
      · exact ⟨0, by rw [Nat.zero_add]; exact hc, by simp, by simp [hea]⟩
      · have he' : e ∈ as := by
          rcases List.mem_cons.mp he with h | h
          · exact absurd h hea
          · exact h
        obtain ⟨j, hcj, hj, hget⟩ := ih (k + 1) e he' hkeep
        refine ⟨j + 1, ?_, by simp only [List.length_cons]; omega, ?_⟩
        · rw [show j + 1 + k = j + (k + 1) from by omega]
          exact hcj
        · simpa using hget
    | false =>
      rw [hc, if_neg (by simp)] at hkeep
      have hea : e ≠ a := by
        intro hEq
        exact hkeep (hEq ▸ List.mem_cons_self a _)
      have he' : e ∈ as := by
        rcases List.mem_cons.mp he with h | h
        · exact absurd h hea
        · exact h
      have hkeep' : e ∉ keepAux idxs (k + 1) as :=
        fun hmem => hkeep (List.mem_cons_of_mem a hmem)
      obtain ⟨j, hcj, hj, hget⟩ := ih (k + 1) e he' hkeep'
      refine ⟨j + 1, ?_, by simp only [List.length_cons]; omega, ?_⟩
      · rw [show j + 1 + k = j + (k + 1) from by omega]
        exact hcj
      · simpa using hget

theorem pyMin_isSome (idxs : List Nat) (h : idxs ≠ []) : ∃ m, pyMin idxs = some m := by
  cases idxs with
  | nil => exact absurd rfl h
  | cons a as => exact ⟨as.foldl Nat.min a, rfl⟩

/-- The entry sitting at the position found by `list.index` for a column name
carries that column name. -/
theorem get_indexOf_map_fst (fc : List ForeignColumnPath) (c : String)
    (h : c ∈ fc.map Prod.fst) :
    ∃ hlt : List.indexOf c (fc.map Prod.fst) < fc.length,
      (fc.get ⟨List.indexOf c (fc.map Prod.fst), hlt⟩).1 = c := by
  induction fc with
  | nil => simp at h
  | cons p ps ih =>
    rw [List.map_cons]
    cases hc : (c == p.1) with
    | true =>
      have h0 : List.indexOf c (p.1 :: ps.map Prod.fst) = 0 :=
        List.indexOf_cons_eq _ (beq_iff_eq.mp hc).symm
      rw [h0]
      exact ⟨by simp, (beq_iff_eq.mp hc).symm⟩
    | false =>
      have hmem : c ∈ ps.map Prod.fst := by
        rw [List.map_cons] at h
        rcases List.mem_cons.mp h with h | h
        · exact absurd (beq_iff_eq.mpr h) (by rw [hc]; exact Bool.false_ne_true)
        · exact h
      obtain ⟨hlt, hget⟩ := ih hmem
      have hstep : List.indexOf c (p.1 :: ps.map Prod.fst)
          = List.indexOf c (ps.map Prod.fst) + 1 :=
        List.indexOf_cons_ne _ (Ne.symm (ne_of_beq_false hc))
      rw [hstep]
      refine ⟨by simp only [List.length_cons]; omega, ?_⟩
      show ((p :: ps).get ⟨List.indexOf c (ps.map Prod.fst) + 1, _⟩).1 = c
      rw [List.get_cons_succ]
      exact hget

/-- Characterization of the entries produced by the export rewrite: either an
untouched selected local column with an empty path, or an alternate-key
column of a rewritten foreign key, tagged with that FK's name. -/
def entryOk (cfg : TablesConfig) (local_columns : List String)
    (fks_all : List ForeignKeyInfo) (e : ForeignColumnPath) : Prop :=
  (e.2 = [] ∧ e.1 ∈ local_columns)
  ∨ ∃ fk, fk ∈ fks_all ∧ fkRewritten cfg local_columns fk = true ∧ e.2 = [fk.name]
      ∧ ∃ aks, akColumns cfg fk = some aks ∧ e.1 ∈ aks

theorem processFk_fold_spec (cfg : TablesConfig) (local_columns : List String)
    (fks_all : List ForeignKeyInfo) (P : ForeignColumnPath → Prop) :
    ∀ (R : List ForeignKeyInfo) (fc : List ForeignColumnPath),
    (∀ fk ∈ R, fk ∈ fks_all) →
    R.Pairwise (fun f g => ∀ c, c ∈ f.constrained_columns
        → c ∈ g.constrained_columns → False) →
    (∀ fk ∈ R, fk.constrained_columns ≠ [] ∧ fk.constrained_columns.Nodup) →
    (∀ e ∈ fc, entryOk cfg local_columns fks_all e) →
    (∀ fk ∈ R, fkRewritten cfg local_columns fk = true →
        ∀ c ∈ fk.constrained_columns, (c, ([] : List String)) ∈ fc) →
    (∀ e, P e → e ∈ fc) →
    (∀ e, P e → ∀ fk ∈ R, fkRewritten cfg local_columns fk = true
        → e.1 ∉ fk.constrained_columns) →
    ∃ final, R.foldlM (processFk cfg local_columns) fc = some final
      ∧ (∀ e ∈ final, entryOk cfg local_columns fks_all e)
      ∧ (∀ e, P e → e ∈ final) := by
  intro R
  induction R with
  | nil =>
    intro fc _ _ _ hinv1 _ hprot _
    exact ⟨fc, rfl, hinv1, hprot⟩
  | cons fk R2 ih =>
    intro fc hsub hpw h3 hinv1 hinv3 hprot hpsafe
    rw [List.pairwise_cons] at hpw
    have hfkmem : fk ∈ fk :: R2 := List.mem_cons_self fk R2
    cases hrw : fkRewritten cfg local_columns fk with
    | false =>
      have hstep := processFk_skip cfg local_columns fc fk hrw
      obtain ⟨final, hf, hok, hp⟩ := ih fc
        (fun g hg => hsub g (List.mem_cons_of_mem fk hg)) hpw.2
        (fun g hg => h3 g (List.mem_cons_of_mem fk hg)) hinv1
        (fun g hg => hinv3 g (List.mem_cons_of_mem fk hg)) hprot
        (fun e he g hg => hpsafe e he g (List.mem_cons_of_mem fk hg))
      refine ⟨final, ?_, hok, hp⟩
      show (processFk cfg local_columns fc fk).bind _ = _
      rw [hstep]
      exact hf
    | true =>
      have hsubset : fk.constrained_columns.all (fun c => local_columns.contains c) = true := by
        rw [fkRewritten, Bool.and_eq_true] at hrw
        exact hrw.1
      obtain ⟨aks, hak⟩ : ∃ aks, akColumns cfg fk = some aks := by
        rw [fkRewritten, Bool.and_eq_true] at hrw
        exact Option.isSome_iff_exists.mp hrw.2
      have hcols := hinv3 fk hfkmem hrw
      have hnames : ∀ c ∈ fk.constrained_columns, c ∈ fc.map Prod.fst := fun c hc =>
        List.mem_map.mpr ⟨(c, []), hcols c hc, rfl⟩
      have hcontains : fk.constrained_columns.all
          (fun c => (fc.map Prod.fst).contains c) = true := by
        rw [List.all_eq_true]
        intro c hc
        exact List.elem_iff.mpr (hnames c hc)
      have hinrange : ∀ i ∈ fk.constrained_columns.map
          (fun c => List.indexOf c (fc.map Prod.fst)), i < fc.length := by
        intro i hi
        obtain ⟨c, hc, hci⟩ := List.mem_map.mp hi
        obtain ⟨hlt, _⟩ := get_indexOf_map_fst fc c (hnames c hc)
        rw [← hci]
        exact hlt
      have hnodup : (fk.constrained_columns.map
          (fun c => List.indexOf c (fc.map Prod.fst))).Nodup := by
        refine List.Nodup.map_on ?_ (h3 fk hfkmem).2
        intro x hx y hy hxy
        exact (List.indexOf_inj (hnames x hx) (hnames y hy)).mp hxy
      have hne : fk.constrained_columns.map
          (fun c => List.indexOf c (fc.map Prod.fst)) ≠ [] := by
        intro hcon
        exact (h3 fk hfkmem).1 (List.map_eq_nil_iff.mp hcon)
      obtain ⟨m, hmin⟩ := pyMin_isSome _ hne
      obtain ⟨hrepl, htake⟩ := replace_indexes_spec fc
        (fk.constrained_columns.map (fun c => List.indexOf c (fc.map Prod.fst)))
        (aks.map (fun c => (c, [fk.name]))) m hmin hnodup hinrange
      have hstep : processFk cfg local_columns fc fk
          = some (fc.take m ++ aks.map (fun c => (c, [fk.name]))
              ++ (keepNotReplaced fc
                  (fk.constrained_columns.map
                    (fun c => List.indexOf c (fc.map Prod.fst)))).drop m) := by
        rw [processFk, if_neg (by rw [hsubset]; decide)]
        simp only [hak]
        rw [if_pos hcontains]
        exact hrepl
      -- survival of entries whose column is not a constrained column of fk
      have hkeepsub : List.Sublist
          (keepNotReplaced fc (fk.constrained_columns.map
            (fun c => List.indexOf c (fc.map Prod.fst))))
          (fc.take m ++ aks.map (fun c => (c, [fk.name]))
            ++ (keepNotReplaced fc (fk.constrained_columns.map
                (fun c => List.indexOf c (fc.map Prod.fst)))).drop m) := by
        rw [← htake, List.append_assoc]
        conv_lhs => rw [← List.take_append_drop m (keepNotReplaced fc
          (fk.constrained_columns.map (fun c => List.indexOf c (fc.map Prod.fst))))]
        exact (List.Sublist.refl _).append (List.sublist_append_right _ _)
      have hsurvive : ∀ e ∈ fc, e.1 ∉ fk.constrained_columns →
          e ∈ fc.take m ++ aks.map (fun c => (c, [fk.name]))
            ++ (keepNotReplaced fc (fk.constrained_columns.map
                (fun c => List.indexOf c (fc.map Prod.fst)))).drop m := by
        intro e he hnotin
        apply hkeepsub.subset
        by_contra hnot
        obtain ⟨j, hcj, hj, hget⟩ := keepAux_mem_or _ fc 0 e he hnot
        rw [Nat.add_zero] at hcj
        obtain ⟨c, hc, hcj2⟩ := List.mem_map.mp (List.elem_iff.mp hcj)
        obtain ⟨hlt, hgetc⟩ := get_indexOf_map_fst fc c (hnames c hc)
        apply hnotin
        have hje : fc.get ⟨j, hj⟩ = e := hget
        have hj2 : (⟨j, hj⟩ : Fin fc.length)
            = ⟨List.indexOf c (fc.map Prod.fst), hlt⟩ := by
          rw [Fin.mk.injEq]
          exact hcj2.symm
        rw [hj2] at hje
        rw [hje] at hgetc
        rw [hgetc]
        exact hc
      -- recurse
      obtain ⟨final, hf, hok, hp⟩ := ih
        (fc.take m ++ aks.map (fun c => (c, [fk.name]))
          ++ (keepNotReplaced fc (fk.constrained_columns.map
              (fun c => List.indexOf c (fc.map Prod.fst)))).drop m)
        (fun g hg => hsub g (List.mem_cons_of_mem fk hg)) hpw.2
        (fun g hg => h3 g (List.mem_cons_of_mem fk hg))
        (by
          intro e he
          rcases List.mem_append.mp he with he | he
          · rcases List.mem_append.mp he with he | he
            · exact hinv1 e (List.mem_of_mem_take he)
            · obtain ⟨c, hcaks, rfl⟩ := List.mem_map.mp he
              exact Or.inr ⟨fk, hsub fk hfkmem, hrw, rfl, aks, hak, hcaks⟩
          · have hemem : e ∈ keepNotReplaced fc (fk.constrained_columns.map
                (fun c => List.indexOf c (fc.map Prod.fst))) := List.mem_of_mem_drop he
            exact hinv1 e ((keepAux_sublist _ fc 0).subset hemem))
        (by
          intro g hg hgrw c hc
          apply hsurvive (c, []) (hinv3 g (List.mem_cons_of_mem fk hg) hgrw c hc)
          intro hcfk
          exact hpw.1 g hg c hcfk hc)
        (by
          intro e he
          apply hsurvive e (hprot e he)
          exact hpsafe e he fk hfkmem hrw)
        (fun e he g hg => hpsafe e he g (List.mem_cons_of_mem fk hg))
      refine ⟨final, ?_, hok, hp⟩
      show (processFk cfg local_columns fc fk).bind _ = _
      rw [hstep]
      exact hf

/-- C10 (amended): in the export rewrite, a foreign key's columns are rewritten
to the referent's alternate-key columns only when both (a) every one of the
FK's constrained columns is among the selected local columns, and (b) the
referred table has an entry with an alternate_key in the per-table config.
Provided the foreign keys' constrained-column sets are pairwise disjoint and
each FK's constrained columns are nonempty and duplicate-free, if either
condition fails for an FK then each of its selected columns remains in the
output as a local column with an empty path; and every entry with a nonempty
path is an alternate-key column of an FK for which both conditions hold. -/
theorem replace_local_columns_only_rewrites_fks
    (fks : List ForeignKeyInfo) (cfg : TablesConfig) (local_columns : List String)
    (hdisj : fks.Pairwise (fun f g => ∀ c ∈ f.constrained_columns,
        c ∈ g.constrained_columns → False))
    (hcols : ∀ fk ∈ fks, fk.constrained_columns ≠ [] ∧ fk.constrained_columns.Nodup) :
    ∃ final, replace_local_columns_with_alternate_keys fks cfg local_columns = some final
      ∧ (∀ fk ∈ fks, fkRewritten cfg local_columns fk = false →
          ∀ c ∈ fk.constrained_columns, c ∈ local_columns →
            (c, ([] : List String)) ∈ final)
      ∧ (∀ e ∈ final, e.2 ≠ ([] : List String) →
          ∃ fk ∈ fks, fkRewritten cfg local_columns fk = true ∧ e.2 = [fk.name]
            ∧ ∃ aks, akColumns cfg fk = some aks ∧ e.1 ∈ aks) := by
  obtain ⟨final, heq, hok, hp⟩ := processFk_fold_spec cfg local_columns fks
    (fun e => ∃ fk, fk ∈ fks ∧ fkRewritten cfg local_columns fk = false
      ∧ ∃ c, c ∈ fk.constrained_columns ∧ c ∈ local_columns
        ∧ e = (c, ([] : List String)))
    fks (local_columns.map (fun c => (c, ([] : List String))))
    (fun g hg => hg) hdisj hcols
    (by
      intro e he
      obtain ⟨c, hc, rfl⟩ := List.mem_map.mp he
      exact Or.inl ⟨rfl, hc⟩)
    (by
      intro fk hfk hrw c hc
      rw [fkRewritten, Bool.and_eq_true] at hrw
      have hcl : c ∈ local_columns := List.elem_iff.mp (List.all_eq_true.mp hrw.1 c hc)
      exact List.mem_map.mpr ⟨c, hcl, rfl⟩)
    (by
      rintro e ⟨fk, hfk, hfkr, c, hc, hcl, rfl⟩
      exact List.mem_map.mpr ⟨c, hcl, rfl⟩)
    (by
      rintro e ⟨fk, hfk, hfkr, c, hc, hcl, rfl⟩ g hg hgrw hcg
      have hne : fk ≠ g := by
        intro h
        rw [h, hgrw] at hfkr
        exact Bool.noConfusion hfkr
      have hsymm : Symmetric (fun f g : ForeignKeyInfo =>
          ∀ c ∈ f.constrained_columns, c ∈ g.constrained_columns → False) := by
        intro f g h c hcg2 hcf2
        exact h c hcf2 hcg2
      exact hdisj.forall hsymm hfk hg hne c hc hcg)
  refine ⟨final, heq, ?_, ?_⟩
  · intro fk hfk hfkr c hc hcl
    exact hp (c, []) ⟨fk, hfk, hfkr, c, hc, hcl, rfl⟩
  · intro e he hne
    rcases hok e he with ⟨h2, _⟩ | ⟨fk, hfk, hrw, h2, aks, hak, hmem⟩
    · exact absurd h2 hne
    · exact ⟨fk, hfk, hrw, h2, aks, hak, hmem⟩

/-- Witness for C10's amended theorem: FK f1 on column x referring to table T
(configured with alternate key t_code) is rewritten; FK f2 on column y
referring to the unconfigured table U is not. -/
theorem replace_local_columns_only_rewrites_fks_witness :
    ∃ final, replace_local_columns_with_alternate_keys
        [⟨"f1", ["x"], "T", ["tid"]⟩, ⟨"f2", ["y"], "U", ["uid"]⟩]
        [("T", ⟨none, some ["t_code"]⟩)] ["x", "y", "z"] = some final
      ∧ (∀ fk ∈ [ForeignKeyInfo.mk "f1" ["x"] "T" ["tid"],
            ForeignKeyInfo.mk "f2" ["y"] "U" ["uid"]],
          fkRewritten [("T", ⟨none, some ["t_code"]⟩)] ["x", "y", "z"] fk = false →
          ∀ c ∈ fk.constrained_columns, c ∈ ["x", "y", "z"] →
            (c, ([] : List String)) ∈ final)
      ∧ (∀ e ∈ final, e.2 ≠ ([] : List String) →
          ∃ fk ∈ [ForeignKeyInfo.mk "f1" ["x"] "T" ["tid"],
              ForeignKeyInfo.mk "f2" ["y"] "U" ["uid"]],
            fkRewritten [("T", ⟨none, some ["t_code"]⟩)] ["x", "y", "z"] fk = true
            ∧ e.2 = [fk.name]
            ∧ ∃ aks, akColumns [("T", ⟨none, some ["t_code"]⟩)] fk = some aks
              ∧ e.1 ∈ aks) :=
  replace_local_columns_only_rewrites_fks
    [⟨"f1", ["x"], "T", ["tid"]⟩, ⟨"f2", ["y"], "U", ["uid"]⟩]
    [("T", ⟨none, some ["t_code"]⟩)] ["x", "y", "z"]
    (by decide) (by decide)

/-- Counterexample to C10 as stated: two foreign keys share the constrained
column x. FK f1 (on x alone, referring to configured table T) is rewritten,
which removes the x entry; FK f2 (on x and y, referring to unconfigured
table U) satisfies neither rewrite condition, yet its column x does NOT
remain in the output as a local column with an empty path. -/
theorem replace_local_columns_counterexample :
    replace_local_columns_with_alternate_keys
        [⟨"f1", ["x"], "T", ["tid"]⟩, ⟨"f2", ["x", "y"], "U", ["uid"]⟩]
        [("T", ⟨none, some ["t_code"]⟩)] ["x", "y"]
      = some [("t_code", ["f1"]), ("y", [])]
    ∧ fkRewritten [("T", ⟨none, some ["t_code"]⟩)] ["x", "y"]
        ⟨"f2", ["x", "y"], "U", ["uid"]⟩ = false
    ∧ ("x", ([] : List String))
        ∉ [(("t_code" : String), ["f1"]), (("y" : String), ([] : List String))] := by
  refine ⟨?_, rfl, by decide⟩
  decide

/-- A referent table visible to the staging translate joins of `pg_upsert`:
its column names and its rows. -/
structure RefTable where
  cols : List String
  rows : Table
deriving DecidableEq, Repr

/-- The referent tables of the database, by table name. -/
def lookupTable (db : List (String × RefTable)) (t : String) : Option RefTable :=
  match db.find? (fun e => e.1 == t) with
  | some e => some e.2
  | none => none

/-- Value of column `i` of a row; out-of-range reads give NULL. -/
def getVal (r : Row) (i : Nat) : Option Value :=
  r.getD i none

/-- Positions, within the `_tmp_copy` column layout (the foreign-column list),
of the alternate-key columns carried for the foreign key named `nm`. These are
the `join_columns_local` accumulated by `sql_select_table_with_local_columns`
(src/pgmerge/db_import.py), in list order. -/
def akSrcPositions (fcl : List ForeignColumnPath) (nm : String) : List Nat :=
  (fcl.enum.filter (fun e => e.2.2 == [nm])).map Prod.fst

/-- The ON condition of one LEFT JOIN generated by `sql_join_from_foreign_key`
(src/pgmerge/db_export.py): a conjunction of NULL-safe comparisons pairing the
staged alternate-key columns with the referent's alternate-key columns. -/
def akJoinMatch (copyRow prow : Row) (srcPos refPos : List Nat) : Bool :=
  (srcPos.zip refPos).all (fun pq => nullSafeEq (getVal copyRow pq.1) (getVal prow pq.2))

/-- LEFT JOIN semantics for one rewritten foreign key and one `_tmp_copy` row:
every referent row satisfying the ON condition is a choice; when none matches,
the single NULL-extended choice remains. Returns `none` when the referred
table's alternate key or the referent table itself is unavailable. -/
def fkJoinChoices (db : List (String × RefTable)) (cfg : TablesConfig)
    (fcl : List ForeignColumnPath) (copyRow : Row) (fk : ForeignKeyInfo) :
    Option (List (ForeignKeyInfo × RefTable × Option Row)) :=
  match akColumns cfg fk, lookupTable db fk.referred_table with
  | some aks, some P =>
    let srcPos := akSrcPositions fcl fk.name
    let refPos := aks.map (fun a => P.cols.indexOf a)
    some (match P.rows.filter (fun prow => akJoinMatch copyRow prow srcPos refPos) with
      | [] => [(fk, P, none)]
      | ms => ms.map (fun p => (fk, P, some p)))
  | _, _ => none

/-- All combinations of one choice per join: the row multiplication performed
by a SELECT with several independent LEFT JOINs. -/
def joinProduct : List (List α) → List (List α)
  | [] => [[]]
  | cs :: rest => cs.flatMap (fun c => (joinProduct rest).map (fun tl => c :: tl))

/-- Value of one output column of the `_tmp_final` select, as assembled by
`replace_foreign_columns_with_local_columns` (src/pgmerge/db_import.py): a
column constrained by a rewritten foreign key takes the matched referent
row's referred-column value (NULL when the LEFT JOIN found no match); any
other column is read from the `_tmp_copy` row at the position of its
local entry. -/
def translatedValue (fcl : List ForeignColumnPath) (copyRow : Row)
    (choices : List (ForeignKeyInfo × RefTable × Option Row)) (c : String) :
    Option Value :=
  match choices.find? (fun ch => ch.1.constrained_columns.contains c) with
  | some ch =>
    match ch.2.2 with
    | some prow =>
      getVal prow (ch.2.1.cols.indexOf
        (ch.1.referred_columns.getD (ch.1.constrained_columns.indexOf c) ""))
    | none => none
  | none => getVal copyRow (fcl.indexOf (c, []))

/-- The `_tmp_final` rows produced from one `_tmp_copy` row by
`sql_select_table_with_local_columns` (src/pgmerge/db_import.py): one output
row in destination-column order per combination of per-foreign-key join
choices. -/
def translateRow (db : List (String × RefTable)) (cfg : TablesConfig)
    (fcl : List ForeignColumnPath) (columns : List String)
    (rfks : List ForeignKeyInfo) (copyRow : Row) : Option Table :=
  (rfks.mapM (fkJoinChoices db cfg fcl copyRow)).map (fun per =>
    (joinProduct per).map (fun chs => columns.map (translatedValue fcl copyRow chs)))

/-- The staging translate of `pg_upsert`: the `_tmp_final` table produced from
the whole `_tmp_copy` table. -/
def translateTable (db : List (String × RefTable)) (cfg : TablesConfig)
    (fcl : List ForeignColumnPath) (columns : List String)
    (rfks : List ForeignKeyInfo) (file : Table) : Option Table :=
  (file.mapM (translateRow db cfg fcl columns rfks)).map List.flatten

/-- Model of a full `pg_upsert` run over one file (src/pgmerge/db_import.py),
including the staging translate: validate the parameters, rewrite the local
columns to foreign alternate-key columns (the `_tmp_copy` layout), COPY the
file into `_tmp_copy` (setting `total` to the file's row count), build
`_tmp_final` through the LEFT JOINs against the referent tables, and run
`upsert_table_to_table` from `_tmp_final` into the destination. The outer
`none` models failures outside the `PreImportException` hierarchy. -/
def pg_upsert_model_fk (dest_table : String) (t : TableSchema) (cfg : FileConfig)
    (tables_cfg : TablesConfig) (fks : List ForeignKeyInfo)
    (db : List (String × RefTable)) (file dest : Table) :
    Option (Except PreImportError (ImportStats × Table)) :=
  match pg_upsert_validate dest_table t cfg with
  | .error e => some (.error e)
  | .ok (columns, id_columns) =>
    match replace_local_columns_with_alternate_keys fks tables_cfg columns with
    | none => none
    | some fcl =>
      match translateTable db tables_cfg fcl columns
          (fks.filter (fkRewritten tables_cfg columns)) file with
      | none => none
      | some staged =>
        let ids := id_positions columns id_columns
        let r := upsert_table_to_table staged dest ids
        some (.ok ({ r.1 with total := file.length }, r.2.2))

/-- C1 (amended): for every successful single-file merge performed by
`pg_upsert`, the returned stats satisfy skip + insert + update = total, where
total is the number of CSV data rows loaded into the staging table, provided
(i) the staging translate stages exactly one row per file row — each
rewritten foreign key's alternate-key lookup matches exactly one referent row
— and (ii) the identifier columns identify rows uniquely within the staged
data and within the destination table. Without (i) the referent LEFT JOIN
fans out (alternate keys are not enforced unique by the database); without
(ii) the update rowcount counts destination rows; in both cases the sum can
exceed total. -/
theorem pg_upsert_stats_sum (dest_table : String) (t : TableSchema) (cfg : FileConfig)
    (tables_cfg : TablesConfig) (fks : List ForeignKeyInfo)
    (db : List (String × RefTable)) (file dest staged : Table)
    (cols idcols : List String) (fcl : List ForeignColumnPath)
    (hv : pg_upsert_validate dest_table t cfg = .ok (cols, idcols))
    (hfcl : replace_local_columns_with_alternate_keys fks tables_cfg cols = some fcl)
    (htr : translateTable db tables_cfg fcl cols
        (fks.filter (fkRewritten tables_cfg cols)) file = some staged)
    (hlen : staged.length = file.length)
    (hs : staged.Pairwise (fun a b => idMatch (id_positions cols idcols) a b = false))
    (hd : dest.Pairwise (fun a b => idMatch (id_positions cols idcols) a b = false)) :
    ∃ stats dest2,
      pg_upsert_model_fk dest_table t cfg tables_cfg fks db file dest
        = some (.ok (stats, dest2))
      ∧ stats.skip + stats.insert + stats.update = stats.total
      ∧ stats.total = file.length := by
  refine ⟨{ (upsert_table_to_table staged dest (id_positions cols idcols)).1
              with total := file.length },
          (upsert_table_to_table staged dest (id_positions cols idcols)).2.2,
          ?_, ?_, rfl⟩
  · unfold pg_upsert_model_fk
    simp only [hv, hfcl, htr]
  · show (upsert_table_to_table staged dest (id_positions cols idcols)).1.skip
        + (upsert_table_to_table staged dest (id_positions cols idcols)).1.insert
        + (upsert_table_to_table staged dest (id_positions cols idcols)).1.update
        = file.length
    have h := upsert_table_to_table_counts staged dest (id_positions cols idcols) hs hd
    rw [h, hlen]

/-- Witness for C1 (amended): a one-row file whose foreign-key column is
rewritten to a referent alternate key with a unique match stages one row and
merges into an empty table with stats ⟨0, 1, 0, 1⟩. -/
theorem pg_upsert_stats_sum_witness :
    ∃ stats dest2,
      pg_upsert_model_fk "t" ⟨["x", "v"], ["x"], []⟩ ⟨none, none⟩
          [("P", ⟨none, some ["code"]⟩)] [⟨"f1", ["x"], "P", ["pid"]⟩]
          [("P", ⟨["pid", "code"], [[some 10, some 5]]⟩)]
          [[some 5, some 7]] [] = some (.ok (stats, dest2))
      ∧ stats.skip + stats.insert + stats.update = stats.total
      ∧ stats.total = ([[some 5, some 7]] : Table).length :=
  pg_upsert_stats_sum "t" ⟨["x", "v"], ["x"], []⟩ ⟨none, none⟩
    [("P", ⟨none, some ["code"]⟩)] [⟨"f1", ["x"], "P", ["pid"]⟩]
    [("P", ⟨["pid", "code"], [[some 10, some 5]]⟩)]
    [[some 5, some 7]] [] [[some 10, some 7]]
    ["x", "v"] ["x"] [("code", ["f1"]), ("v", [])]
    rfl (by decide) (by decide) (by decide) (by decide) (by decide)

/-- C1 counterexample: two independent failures of the original claim. First,
with an alternate key that is not unique in the destination (two destination
rows share key 1), a one-row file yields update = 2, so the sum is 2 while
total = 1. Second, with a foreign-key column rewritten to a referent
alternate key that matches two referent rows, a one-row file — trivially
pairwise-distinct, into an empty destination — stages two rows and yields
insert = 2 while total = 1. -/
theorem pg_upsert_stats_sum_counterexample :
    pg_upsert_model_fk "t" ⟨["ak", "val"], [], []⟩ ⟨none, some ["ak"]⟩ [] [] []
        [[some 1, some 2]] [[some 1, some 0], [some 1, some 1]]
      = some (.ok (⟨0, 0, 2, 1⟩, [[some 1, some 2], [some 1, some 2]]))
    ∧ pg_upsert_model_fk "t" ⟨["x", "v"], ["x"], []⟩ ⟨none, none⟩
        [("P", ⟨none, some ["code"]⟩)] [⟨"f1", ["x"], "P", ["pid"]⟩]
        [("P", ⟨["pid", "code"], [[some 10, some 5], [some 11, some 5]]⟩)]
        [[some 5, some 7]] []
      = some (.ok (⟨0, 2, 0, 1⟩, [[some 10, some 7], [some 11, some 7]]))
    ∧ (⟨0, 0, 2, 1⟩ : ImportStats).skip + (⟨0, 0, 2, 1⟩ : ImportStats).insert
        + (⟨0, 0, 2, 1⟩ : ImportStats).update ≠ (⟨0, 0, 2, 1⟩ : ImportStats).total
    ∧ (⟨0, 2, 0, 1⟩ : ImportStats).skip + (⟨0, 2, 0, 1⟩ : ImportStats).insert
        + (⟨0, 2, 0, 1⟩ : ImportStats).update ≠ (⟨0, 2, 0, 1⟩ : ImportStats).total := by
  refine ⟨?_, ?_, by decide, by decide⟩
  · rfl
  · rfl

/-- C2 (amended): merging the same file into the same table twice in
succession yields insert = 0 and update = 0 on the second run, provided the
staged rows produced by the foreign-key translate carry pairwise distinct
identifier values (the destination itself not being a referent of the
rewritten foreign keys, so that the two runs stage identically). A referent
alternate key matching several rows fans the staged data out into rows with
duplicate identifiers, and the second run updates again. -/
theorem pg_upsert_idempotent (dest_table : String) (t : TableSchema) (cfg : FileConfig)
    (tables_cfg : TablesConfig) (fks : List ForeignKeyInfo)
    (db : List (String × RefTable)) (file dest staged : Table)
    (cols idcols : List String) (fcl : List ForeignColumnPath)
    (hv : pg_upsert_validate dest_table t cfg = .ok (cols, idcols))
    (hfcl : replace_local_columns_with_alternate_keys fks tables_cfg cols = some fcl)
    (htr : translateTable db tables_cfg fcl cols
        (fks.filter (fkRewritten tables_cfg cols)) file = some staged)
    (hs : staged.Pairwise (fun a b => idMatch (id_positions cols idcols) a b = false)) :
    ∃ stats1 d1 stats2 d2,
      pg_upsert_model_fk dest_table t cfg tables_cfg fks db file dest
        = some (.ok (stats1, d1))
      ∧ pg_upsert_model_fk dest_table t cfg tables_cfg fks db file d1
        = some (.ok (stats2, d2))
      ∧ stats2.insert = 0 ∧ stats2.update = 0 := by
  refine ⟨{ (upsert_table_to_table staged dest (id_positions cols idcols)).1
              with total := file.length },
          (upsert_table_to_table staged dest (id_positions cols idcols)).2.2,
          { (upsert_table_to_table staged
              (upsert_table_to_table staged dest (id_positions cols idcols)).2.2
              (id_positions cols idcols)).1 with total := file.length },
          (upsert_table_to_table staged
              (upsert_table_to_table staged dest (id_positions cols idcols)).2.2
              (id_positions cols idcols)).2.2,
          ?_, ?_, ?_, ?_⟩
  · unfold pg_upsert_model_fk
    simp only [hv, hfcl, htr]
  · unfold pg_upsert_model_fk
    simp only [hv, hfcl, htr]
  · show (upsert_table_to_table staged
        (upsert_table_to_table staged dest (id_positions cols idcols)).2.2
        (id_positions cols idcols)).1.insert = 0
    exact (upsert_table_to_table_idempotent staged dest (id_positions cols idcols) hs).1
  · show (upsert_table_to_table staged
        (upsert_table_to_table staged dest (id_positions cols idcols)).2.2
        (id_positions cols idcols)).1.update = 0
    exact (upsert_table_to_table_idempotent staged dest (id_positions cols idcols) hs).2

/-- Witness for C2 (amended): merging a one-row file, whose foreign-key
column is rewritten through a uniquely-matching referent alternate key, twice
into an initially empty table; the second run has insert = 0 and update = 0. -/
theorem pg_upsert_idempotent_witness :
    ∃ stats1 d1 stats2 d2,
      pg_upsert_model_fk "t" ⟨["x", "v"], ["x"], []⟩ ⟨none, none⟩
          [("P", ⟨none, some ["code"]⟩)] [⟨"f1", ["x"], "P", ["pid"]⟩]
          [("P", ⟨["pid", "code"], [[some 10, some 5]]⟩)]
          [[some 5, some 7]] [] = some (.ok (stats1, d1))
      ∧ pg_upsert_model_fk "t" ⟨["x", "v"], ["x"], []⟩ ⟨none, none⟩
          [("P", ⟨none, some ["code"]⟩)] [⟨"f1", ["x"], "P", ["pid"]⟩]
          [("P", ⟨["pid", "code"], [[some 10, some 5]]⟩)]
          [[some 5, some 7]] d1 = some (.ok (stats2, d2))
      ∧ stats2.insert = 0 ∧ stats2.update = 0 :=
  pg_upsert_idempotent "t" ⟨["x", "v"], ["x"], []⟩ ⟨none, none⟩
    [("P", ⟨none, some ["code"]⟩)] [⟨"f1", ["x"], "P", ["pid"]⟩]
    [("P", ⟨["pid", "code"], [[some 10, some 5]]⟩)]
    [[some 5, some 7]] [] [[some 10, some 7]]
    ["x", "v"] ["x"] [("code", ["f1"]), ("v", [])]
    rfl (by decide) (by decide) (by decide)

/-- C2 counterexample: a referent alternate key (code 5) matching two referent
rows fans a one-row file — trivially pairwise-distinct — out into two staged
rows sharing the identifier v = 1 but differing in x. The two staged rows
keep flip-flopping the single matching destination row: the second
identical run still reports update = 1. -/
theorem pg_upsert_idempotent_counterexample :
    pg_upsert_model_fk "t" ⟨["x", "v"], ["v"], []⟩ ⟨none, none⟩
        [("P", ⟨none, some ["code"]⟩)] [⟨"f1", ["x"], "P", ["pid"]⟩]
        [("P", ⟨["pid", "code"], [[some 10, some 5], [some 11, some 5]]⟩)]
        [[some 5, some 1]] [[some 99, some 1]]
      = some (.ok (⟨0, 0, 1, 1⟩, [[some 10, some 1]]))
    ∧ pg_upsert_model_fk "t" ⟨["x", "v"], ["v"], []⟩ ⟨none, none⟩
        [("P", ⟨none, some ["code"]⟩)] [⟨"f1", ["x"], "P", ["pid"]⟩]
        [("P", ⟨["pid", "code"], [[some 10, some 5], [some 11, some 5]]⟩)]
        [[some 5, some 1]] [[some 10, some 1]]
      = some (.ok (⟨1, 0, 1, 1⟩, [[some 11, some 1]]))
    ∧ (⟨1, 0, 1, 1⟩ : ImportStats).update ≠ 0 := by
  refine ⟨?_, ?_, by decide⟩
  · rfl
  · rfl

end PgMerge
